import Mathlib

/-!
Verification of the grid-solver core of the dnd-board-game repository.

The shared Rust crate (src/services/shared-rust) defines `GridPosition`,
`EntityId` and the typed error enum `DndError`; those are embedded here
directly from the source.  The grid solver engine itself (GridMap, line of
sight, area of effect, pathfinding) exists in the repository only as a
service stub, so those components are modelled from the specification's
words; each such definition says so in its doc comment.
-/

/-! ## GridPosition and distance (src/services/shared-rust/src/types.rs) -/

/-- Embeds `GridPosition { x: i32, y: i32 }`: an integer pair.  The i32
range restriction is tracked by the `fitsI32` predicate rather than by the
type itself. -/
structure GridPosition where
  x : Int
  y : Int
deriving DecidableEq, Repr

/-- Smallest i32 value. -/
def i32Min : Int := -2147483648

/-- Largest i32 value. -/
def i32Max : Int := 2147483647

/-- The value is representable as an i32. -/
def fitsI32 (n : Int) : Prop := i32Min ≤ n ∧ n ≤ i32Max

instance (n : Int) : Decidable (fitsI32 n) :=
  decidable_of_iff (i32Min ≤ n ∧ n ≤ i32Max) Iff.rfl

/-- Checked i32 subtraction: `a - b` when the difference is representable,
`none` where the Rust debug build would panic with overflow. -/
def subI32 (a b : Int) : Option Int :=
  if fitsI32 (a - b) then some (a - b) else none

/-- Embeds `GridPosition::distance_to` with mathematical integers: the code
computes `sqrt(dx*dx + dy*dy)` for `dx = self.x - other.x`,
`dy = self.y - other.y`.  This is the idealised (overflow-free) value. -/
noncomputable def GridPosition.distance_to (p q : GridPosition) : ℝ :=
  let dx : ℝ := ((p.x - q.x : Int) : ℝ)
  let dy : ℝ := ((p.y - q.y : Int) : ℝ)
  Real.sqrt (dx * dx + dy * dy)

/-- Embeds `GridPosition::distance_to` with the i32 subtractions checked:
`none` marks the inputs on which the debug build panics with overflow. -/
noncomputable def distanceToChecked (p q : GridPosition) : Option ℝ :=
  match subI32 p.x q.x, subI32 p.y q.y with
  | some dx, some dy => some (Real.sqrt ((dx : ℝ) * dx + (dy : ℝ) * dy))
  | _, _ => none

/-- Modelled from the spec: the Chebyshev metric named in section 3 as one
of the distance metrics `distance_to` is claimed to offer. -/
noncomputable def chebyshevDist (p q : GridPosition) : ℝ :=
  ((max (p.x - q.x).natAbs (p.y - q.y).natAbs : ℕ) : ℝ)

/-- Modelled from the spec: the 5e five-foot-square approximation named in
section 3 (squares counted with every second diagonal costing two). -/
def fiveFootSquares (p q : GridPosition) : ℕ :=
  let a := (p.x - q.x).natAbs
  let b := (p.y - q.y).natAbs
  max a b + (min a b) / 2

/-- Modelled from the spec: the 5e metric as a real number of squares. -/
noncomputable def fiveFootDist (p q : GridPosition) : ℝ :=
  ((fiveFootSquares p q : ℕ) : ℝ)

/-- Models the derived `Hash` instance of `GridPosition`: the hasher state
is fed the `x` field and then the `y` field, so the final state is a
function of the pair `(x, y)` alone, whatever the hasher `f` is. -/
def gridHash (f : Nat → Int → Nat) (seed : Nat) (p : GridPosition) : Nat :=
  f (f seed p.x) p.y

/-! ## Errors (src/services/shared-rust/src/errors.rs) -/

/-- Embeds the `DndError` enum: its four variants, with their payloads. -/
inductive DndError where
  | invalidPosition (x y : Int)
  | entityNotFound (entity : String)
  | invalidAction (msg : String)
  | rulesViolation (msg : String)
deriving DecidableEq, Repr

/-- The kind of an error value, named as the variant is in the source. -/
def DndError.kind : DndError → String
  | .invalidPosition _ _ => "InvalidPosition"
  | .entityNotFound _ => "EntityNotFound"
  | .invalidAction _ => "InvalidAction"
  | .rulesViolation _ => "RulesViolation"

/-- The kinds of the four `DndError` variants, in declaration order. -/
def dndErrorKinds : List String :=
  ["InvalidPosition", "EntityNotFound", "InvalidAction", "RulesViolation"]

/-! ## Claims C1, C3, C9, C10 about GridPosition, C2 about DndError -/

/-- Helper: the square of a real cast of an integer difference. -/
lemma cast_natAbs_sq (n : Int) : (((n.natAbs : ℕ) : ℝ)) ^ 2 = ((n : ℝ)) ^ 2 := by
  rw [show (((n.natAbs : ℕ) : ℝ)) = |(n : ℝ)| by
    rw [Int.cast_natAbs]; push_cast; ring]
  exact sq_abs _

/-- C1 (counterexample): at the pair (0,0), (2,2) the code's `distance_to`
returns the Euclidean value √8, which is neither the Chebyshev value 2 nor
the 5e five-foot-square value 3 — the caller cannot select those metrics. -/
theorem C1_cex_distance_to_not_pluggable :
    GridPosition.distance_to ⟨0, 0⟩ ⟨2, 2⟩ = Real.sqrt 8 ∧
    chebyshevDist ⟨0, 0⟩ ⟨2, 2⟩ = 2 ∧
    fiveFootDist ⟨0, 0⟩ ⟨2, 2⟩ = 3 ∧
    GridPosition.distance_to ⟨0, 0⟩ ⟨2, 2⟩ ≠ chebyshevDist ⟨0, 0⟩ ⟨2, 2⟩ ∧
    GridPosition.distance_to ⟨0, 0⟩ ⟨2, 2⟩ ≠ fiveFootDist ⟨0, 0⟩ ⟨2, 2⟩ := by
  have h8 : GridPosition.distance_to ⟨0, 0⟩ ⟨2, 2⟩ = Real.sqrt 8 := by
    unfold GridPosition.distance_to
    norm_num
  have hch : chebyshevDist ⟨0, 0⟩ ⟨2, 2⟩ = 2 := by
    unfold chebyshevDist
    norm_num
  have hff : fiveFootDist ⟨0, 0⟩ ⟨2, 2⟩ = 3 := by
    unfold fiveFootDist fiveFootSquares
    norm_num
  have hlt : (2 : ℝ) < Real.sqrt 8 := by
    rw [show (2 : ℝ) = Real.sqrt 4 by
      rw [show (4 : ℝ) = 2 ^ 2 by norm_num, Real.sqrt_sq (by norm_num)]]
    exact Real.sqrt_lt_sqrt (by norm_num) (by norm_num)
  have hgt : Real.sqrt 8 < 3 := by
    rw [show (3 : ℝ) = Real.sqrt 9 by
      rw [show (9 : ℝ) = 3 ^ 2 by norm_num, Real.sqrt_sq (by norm_num)]]
    exact Real.sqrt_lt_sqrt (by norm_num) (by norm_num)
  refine ⟨h8, hch, hff, ?_, ?_⟩
  · rw [h8, hch]; exact ne_of_gt hlt
  · rw [h8, hff]; exact ne_of_lt hgt

/-- C1 (amended): `distance_to` is fixed to the single Euclidean formula
√(dx² + dy²); it takes no metric selector.  Moreover the Chebyshev metric
is dominated by it pointwise, so the two genuinely differ as metrics. -/
theorem C1_distance_to_is_fixed_euclidean (p q : GridPosition) :
    GridPosition.distance_to p q =
      Real.sqrt (((p.x - q.x : Int) : ℝ) ^ 2 + ((p.y - q.y : Int) : ℝ) ^ 2) ∧
    chebyshevDist p q ≤ GridPosition.distance_to p q := by
  have h1 : GridPosition.distance_to p q =
      Real.sqrt (((p.x - q.x : Int) : ℝ) ^ 2 + ((p.y - q.y : Int) : ℝ) ^ 2) := by
    unfold GridPosition.distance_to
    ring_nf
  refine ⟨h1, ?_⟩
  rw [h1]
  unfold chebyshevDist
  have hx := cast_natAbs_sq (p.x - q.x)
  have hy := cast_natAbs_sq (p.y - q.y)
  rw [Real.le_sqrt (by positivity) (by positivity)]
  rcases max_cases ((p.x - q.x).natAbs) ((p.y - q.y).natAbs) with ⟨hm, _⟩ | ⟨hm, _⟩
  · rw [hm]
    nlinarith [sq_nonneg (((p.y - q.y : Int) : ℝ)), hx, hy]
  · rw [hm]
    nlinarith [sq_nonneg (((p.x - q.x : Int) : ℝ)), hx, hy]

/-- C3: `GridPosition` equality is by value (two positions are equal iff
their coordinate pairs are), and any hash computed by feeding the fields to
a hasher — as the derived `Hash` does — agrees on equal positions. -/
theorem C3_eq_and_hash_by_value (a b : GridPosition) :
    (a = b ↔ a.x = b.x ∧ a.y = b.y) ∧
    (∀ (f : Nat → Int → Nat) (seed : Nat),
      a = b → gridHash f seed a = gridHash f seed b) := by
  constructor
  · cases a; cases b; simp
  · intro f seed h
    rw [h]

/-- C9: `distance_to` is not total: at x = i32::MAX against x = -1 the i32
subtraction overflows (the checked embedding returns `none`, where the debug
build panics); and whenever both coordinate differences fit in i32 the
checked computation succeeds and agrees with the idealised value. -/
theorem C9_distance_to_overflow :
    distanceToChecked ⟨2147483647, 0⟩ ⟨-1, 0⟩ = none ∧
    ∀ a b : GridPosition, fitsI32 (a.x - b.x) → fitsI32 (a.y - b.y) →
      distanceToChecked a b = some (GridPosition.distance_to a b) := by
  constructor
  · unfold distanceToChecked subI32
    rw [if_neg]
    intro h
    rcases h with ⟨_, h2⟩
    norm_num [i32Max] at h2
  · intro a b hx hy
    unfold distanceToChecked subI32 GridPosition.distance_to
    rw [if_pos hx, if_pos hy]

/-- C10: `distance_to` is symmetric on every pair whose coordinate
differences (in both subtraction orders, so that neither call overflows)
are representable in i32: each squared difference is unchanged by swapping
the arguments. -/
theorem C10_distance_to_symm (a b : GridPosition)
    (hx : fitsI32 (a.x - b.x)) (hy : fitsI32 (a.y - b.y))
    (hx' : fitsI32 (b.x - a.x)) (hy' : fitsI32 (b.y - a.y)) :
    distanceToChecked a b = distanceToChecked b a := by
  unfold distanceToChecked subI32
  rw [if_pos hx, if_pos hy, if_pos hx', if_pos hy']
  have : ((a.x - b.x : Int) : ℝ) * ((a.x - b.x : Int) : ℝ) +
      ((a.y - b.y : Int) : ℝ) * ((a.y - b.y : Int) : ℝ) =
      ((b.x - a.x : Int) : ℝ) * ((b.x - a.x : Int) : ℝ) +
      ((b.y - a.y : Int) : ℝ) * ((b.y - a.y : Int) : ℝ) := by
    push_cast
    ring
  simp only [this]

/-- C10 witness: the symmetry theorem applied at (0,0) and (3,4). -/
theorem C10_witness :
    distanceToChecked ⟨0, 0⟩ ⟨3, 4⟩ = distanceToChecked ⟨3, 4⟩ ⟨0, 0⟩ :=
  C10_distance_to_symm ⟨0, 0⟩ ⟨3, 4⟩ (by decide) (by decide) (by decide) (by decide)

/-- C2 (counterexample): no value of the code's error type has kind
`Timeout`; the enum stops at `RulesViolation`. -/
theorem C2_cex_no_timeout_kind :
    ¬ ∃ e : DndError, DndError.kind e = "Timeout" := by
  rintro ⟨e, he⟩
  cases e <;> simp [DndError.kind] at he

/-- C2 (amended): the typed error set of the shared crate contains exactly
the kinds InvalidPosition, EntityNotFound, InvalidAction and RulesViolation
— every error value has one of these kinds and each kind is realised — and
no Timeout kind exists. -/
theorem C2_error_kinds_exactly_four :
    (∀ e : DndError, DndError.kind e ∈ dndErrorKinds) ∧
    (∀ k ∈ dndErrorKinds, ∃ e : DndError, DndError.kind e = k) := by
  constructor
  · intro e
    cases e <;> simp [DndError.kind, dndErrorKinds]
  · intro k hk
    simp only [dndErrorKinds, List.mem_cons, List.mem_singleton] at hk
    rcases hk with rfl | rfl | rfl | hk
    · exact ⟨.invalidPosition 0 0, rfl⟩
    · exact ⟨.entityNotFound (""), rfl⟩
    · exact ⟨.invalidAction (""), rfl⟩
    · rcases hk with rfl | hk
      · exact ⟨.rulesViolation (""), rfl⟩
      · simp at hk

/-! ## GridMap (modelled from the spec, sections 3 and 4.1)

The repository contains no GridMap implementation (the grid-solver service
is a stub), so the data model and mutation contract are modelled from the
specification's words. -/

/-- Modelled from the spec: an entity identifier (the source wraps a Uuid;
the payload is opaque to the grid, so it is modelled as a natural). -/
structure EntityId where
  val : Nat
deriving DecidableEq, Repr

/-- Modelled from the spec: terrain kind of a cell, Open, Difficult or
Blocking. -/
inductive TerrainKind where
  | Open
  | Difficult
  | Blocking
deriving DecidableEq, Repr

/-- Modelled from the spec: a cell holds a terrain kind, an optional integer
elevation and an optional occupant reference. -/
structure Cell where
  terrain : TerrainKind
  elevation : Option Int
  occupant : Option EntityId
deriving DecidableEq

/-- Modelled from the spec: a fixed width × height grid with a total mapping
from position to cell (every in-bounds position has a cell). -/
structure GridMap where
  width : Nat
  height : Nat
  cells : GridPosition → Cell

/-- The position lies in `[0, width) × [0, height)`. -/
def GridMap.inBounds (g : GridMap) (p : GridPosition) : Bool :=
  decide (0 ≤ p.x) && decide (p.x < (g.width : Int)) &&
    decide (0 ≤ p.y) && decide (p.y < (g.height : Int))

/-- Modelled from the spec: `create(width, height, default terrain)` builds
a fully populated grid. -/
def GridMap.create (w h : Nat) (t : TerrainKind) : GridMap :=
  ⟨w, h, fun _ => ⟨t, none, none⟩⟩

/-- Modelled from the spec: `set_terrain` mutates a single cell, failing
with `InvalidPosition` exactly when the position is out of bounds. -/
def GridMap.set_terrain (g : GridMap) (p : GridPosition) (k : TerrainKind)
    (el : Option Int) : Except DndError GridMap :=
  if g.inBounds p then
    .ok { g with cells := fun q =>
      if q = p then { g.cells q with terrain := k, elevation := el } else g.cells q }
  else .error (.invalidPosition p.x p.y)

/-- Modelled from the spec: the contiguous square footprint of `size × size`
cells anchored at `anchor` (glossary: Footprint). -/
def footprint (anchor : GridPosition) (size : Nat) : List GridPosition :=
  (List.range size).flatMap fun i => (List.range size).map fun j =>
    ⟨anchor.x + (i : Int), anchor.y + (j : Int)⟩

/-- The covered cell rules out placement: it is in bounds and is Blocking or
already occupied. -/
def blocksPlacement (g : GridMap) (p : GridPosition) : Bool :=
  g.inBounds p &&
    (decide ((g.cells p).terrain = TerrainKind.Blocking) || (g.cells p).occupant.isSome)

/-- Modelled from the spec: `place_occupant(entity, anchor, size)` fails
with `RulesViolation` if any covered cell is Blocking or already occupied,
else fails with `InvalidPosition` if any covered cell is out of bounds,
else records the occupant on every covered cell. -/
def GridMap.place_occupant (g : GridMap) (e : EntityId) (anchor : GridPosition)
    (size : Nat) : Except DndError GridMap :=
  let cover := footprint anchor size
  if cover.any (fun p => blocksPlacement g p) then
    .error (.rulesViolation ("occupant placed into a Blocking or occupied cell"))
  else if cover.any (fun p => !(g.inBounds p)) then
    .error (.invalidPosition anchor.x anchor.y)
  else
    .ok { g with cells := fun q =>
      if q ∈ cover then { g.cells q with occupant := some e } else g.cells q }

/-! ## Claim C8 -/

/-- C8: the mutation error contract of GridMap.  `set_terrain` fails with
`InvalidPosition` exactly when the target is out of bounds and succeeds
otherwise; `place_occupant` fails with `RulesViolation` exactly when some
covered cell is Blocking or occupied, fails with `InvalidPosition` exactly
when no covered cell violates the rules but some covered cell is out of
bounds, and succeeds otherwise. -/
theorem C8_mutation_error_contract (g : GridMap) (p : GridPosition)
    (k : TerrainKind) (el : Option Int) (e : EntityId) (anchor : GridPosition)
    (size : Nat) :
    ((g.set_terrain p k el = .error (.invalidPosition p.x p.y)) ↔ g.inBounds p = false) ∧
    (g.inBounds p = true → ∃ g2, g.set_terrain p k el = .ok g2) ∧
    ((g.place_occupant e anchor size =
        .error (.rulesViolation ("occupant placed into a Blocking or occupied cell"))) ↔
      ∃ q ∈ footprint anchor size, g.inBounds q = true ∧
        ((g.cells q).terrain = TerrainKind.Blocking ∨ (g.cells q).occupant.isSome = true)) ∧
    ((g.place_occupant e anchor size = .error (.invalidPosition anchor.x anchor.y)) ↔
      ((∀ q ∈ footprint anchor size, blocksPlacement g q = false) ∧
        ∃ q ∈ footprint anchor size, g.inBounds q = false)) ∧
    ((∀ q ∈ footprint anchor size, g.inBounds q = true ∧ blocksPlacement g q = false) →
      ∃ g2, g.place_occupant e anchor size = .ok g2) := by
  have hrv : (footprint anchor size).any (fun q => blocksPlacement g q) = true ↔
      ∃ q ∈ footprint anchor size, g.inBounds q = true ∧
        ((g.cells q).terrain = TerrainKind.Blocking ∨ (g.cells q).occupant.isSome = true) := by
    simp [List.any_eq_true, blocksPlacement]
  have hoob : (footprint anchor size).any (fun q => !(g.inBounds q)) = true ↔
      ∃ q ∈ footprint anchor size, g.inBounds q = false := by
    simp [List.any_eq_true]
  refine ⟨?_, ?_, ?_, ?_, ?_⟩
  · unfold GridMap.set_terrain
    constructor
    · intro h
      by_contra hb
      rw [if_pos (by simpa using Bool.not_eq_false _ |>.mp hb)] at h
      exact Except.noConfusion h
    · intro h
      rw [if_neg (by simp [h])]
  · intro h
    unfold GridMap.set_terrain
    rw [if_pos h]
    exact ⟨_, rfl⟩
  · unfold GridMap.place_occupant
    constructor
    · intro h
      by_cases h1 : (footprint anchor size).any (fun q => blocksPlacement g q) = true
      · exact hrv.mp h1
      · rw [if_neg h1] at h
        by_cases h2 : (footprint anchor size).any (fun q => !(g.inBounds q)) = true
        · rw [if_pos h2] at h
          exact absurd h (by simp [DndError.rulesViolation.injEq])
        · rw [if_neg h2] at h
          exact Except.noConfusion h
    · intro h
      rw [if_pos (hrv.mpr h)]
  · unfold GridMap.place_occupant
    constructor
    · intro h
      by_cases h1 : (footprint anchor size).any (fun q => blocksPlacement g q) = true
      · rw [if_pos h1] at h
        exact absurd h (by simp)
      · rw [if_neg h1] at h
        refine ⟨?_, ?_⟩
        · intro q hq
          by_contra hb
          exact h1 (List.any_eq_true.mpr ⟨q, hq, by simpa using Bool.not_eq_false _ |>.mp hb⟩)
        · by_cases h2 : (footprint anchor size).any (fun q => !(g.inBounds q)) = true
          · exact hoob.mp h2
          · rw [if_neg h2] at h
            exact Except.noConfusion h
    · rintro ⟨hall, hex⟩
      rw [if_neg ?_, if_pos (hoob.mpr hex)]
      intro hcon
      rw [List.any_eq_true] at hcon
      obtain ⟨q, hq, hbq⟩ := hcon
      exact absurd (hall q hq) (by simp [hbq])
  · intro h
    unfold GridMap.place_occupant
    rw [if_neg ?_, if_neg ?_]
    · exact ⟨_, rfl⟩
    · intro hcon
      rw [List.any_eq_true] at hcon
      obtain ⟨q, hq, hbq⟩ := hcon
      exact absurd (h q hq).1 (by simpa using hbq)
    · intro hcon
      rw [List.any_eq_true] at hcon
      obtain ⟨q, hq, hbq⟩ := hcon
      exact absurd (h q hq).2 (by simp [hbq])

/-! ## Line of sight engine (modelled from the spec, section 4.2)

No LOS implementation exists in the repository; the supercover traversal,
the corner tie-break and the elevation rule are modelled from the
specification's words. -/

/-- Modelled from the spec: one element of the supercover traversal — either
a cell the segment passes through, or a pair of cells that share exactly the
corner point the segment passes through ("no single cell strictly contains
the segment" there). -/
inductive LosStep where
  | single (p : GridPosition)
  | corner (p q : GridPosition)
deriving DecidableEq, Repr

/-- State of the supercover walk: current cell, error accumulators and the
steps emitted so far. -/
structure ScState where
  u : Int
  v : Int
  err : Int
  errprev : Int
  acc : List LosStep

/-- Modelled from the spec: supercover traversal when the x-extent
dominates.  The error term tracks where the segment crosses cell borders;
an exact tie (`e2 + errprev = ddx`) is a corner crossing and emits the two
corner-adjacent cells as a `corner` pair. -/
def scMajorX (a : GridPosition) (xstep ystep : Int) (adx ady : Nat) : List LosStep :=
  let ddx : Int := 2 * (adx : Int)
  let ddy : Int := 2 * (ady : Int)
  let init : ScState := ⟨a.x, a.y, (adx : Int), (adx : Int), [LosStep.single a]⟩
  let final := (List.range adx).foldl (fun s _ =>
    let x := s.u + xstep
    let e := s.err + ddy
    if e > ddx then
      let y := s.v + ystep
      let e2 := e - ddx
      let extra : List LosStep :=
        if e2 + s.errprev < ddx then [LosStep.single ⟨x, y - ystep⟩]
        else if e2 + s.errprev > ddx then [LosStep.single ⟨s.u, y⟩]
        else [LosStep.corner ⟨x, y - ystep⟩ ⟨s.u, y⟩]
      ⟨x, y, e2, e2, s.acc ++ extra ++ [LosStep.single ⟨x, y⟩]⟩
    else ⟨x, s.v, e, e, s.acc ++ [LosStep.single ⟨x, s.v⟩]⟩) init
  final.acc

/-- Modelled from the spec: supercover traversal when the y-extent
dominates (the mirror of `scMajorX`). -/
def scMajorY (a : GridPosition) (xstep ystep : Int) (adx ady : Nat) : List LosStep :=
  let ddx : Int := 2 * (adx : Int)
  let ddy : Int := 2 * (ady : Int)
  let init : ScState := ⟨a.x, a.y, (ady : Int), (ady : Int), [LosStep.single a]⟩
  let final := (List.range ady).foldl (fun s _ =>
    let y := s.v + ystep
    let e := s.err + ddx
    if e > ddy then
      let x := s.u + xstep
      let e2 := e - ddy
      let extra : List LosStep :=
        if e2 + s.errprev < ddy then [LosStep.single ⟨x - xstep, y⟩]
        else if e2 + s.errprev > ddy then [LosStep.single ⟨x, s.v⟩]
        else [LosStep.corner ⟨x - xstep, y⟩ ⟨x, s.v⟩]
      ⟨x, y, e2, e2, s.acc ++ extra ++ [LosStep.single ⟨x, y⟩]⟩
    else ⟨s.u, y, e, e, s.acc ++ [LosStep.single ⟨s.u, y⟩]⟩) init
  final.acc

/-- Modelled from the spec: the discrete grid cells intersected by the
straight line between the two cell centers — an all-cells-touched
supercover, not a single-sided Bresenham line. -/
def supercover (a b : GridPosition) : List LosStep :=
  let dx := b.x - a.x
  let dy := b.y - a.y
  let xstep : Int := if dx < 0 then -1 else 1
  let ystep : Int := if dy < 0 then -1 else 1
  let adx := dx.natAbs
  let ady := dy.natAbs
  if ady ≤ adx then scMajorX a xstep ystep adx ady else scMajorY a xstep ystep adx ady

/-- Canonical endpoint order for the traversal, so that diagonal sightlines
are evaluated identically regardless of direction of travel. -/
def losOrient (a b : GridPosition) : GridPosition × GridPosition :=
  if a.x < b.x ∨ (a.x = b.x ∧ a.y ≤ b.y) then (a, b) else (b, a)

/-- Modelled from the spec: the configurable elevation rule — given the
source, target and intermediate-cell elevations, does the cell block. -/
abbrev ElevRule := Option Int → Option Int → Option Int → Bool

/-- Modelled from the spec: an intermediate cell blocks if its terrain is
Blocking or the elevation rule says it blocks along this path. -/
def losCellBlocked (g : GridMap) (rule : ElevRule) (src tgt p : GridPosition) : Bool :=
  decide ((g.cells p).terrain = TerrainKind.Blocking) ||
    rule (g.cells src).elevation (g.cells tgt).elevation (g.cells p).elevation

/-- Walks the supercover steps and collects the blocking cells: a plain
cell blocks by itself (endpoints are skipped — only intermediate cells are
tested), a corner pair blocks only if both corner-adjacent cells block. -/
def losCollect (blocked : GridPosition → Bool) (isEnd : GridPosition → Bool) :
    List LosStep → List GridPosition
  | [] => []
  | .single p :: rest =>
      if !isEnd p && blocked p then p :: losCollect blocked isEnd rest
      else losCollect blocked isEnd rest
  | .corner p q :: rest =>
      if blocked p && blocked q then p :: q :: losCollect blocked isEnd rest
      else losCollect blocked isEnd rest

/-- Packs the blocking cells into the LOS result. -/
structure LosResult where
  visible : Bool
  blocking : List GridPosition
deriving DecidableEq, Repr

/-- Modelled from the spec: `compute_los(grid, from, to, elevation_rule)` —
supercover traversal between the cell centers, Blocking/elevation test on
every intermediate cell, both-must-block tie-break on exact corner
crossings; visible iff no blocking cell, with the blocking cells listed. -/
def compute_los (g : GridMap) (a b : GridPosition) (rule : ElevRule) : LosResult :=
  let bs := losCollect (losCellBlocked g rule a b)
    (fun p => decide (p = a) || decide (p = b))
    (supercover (losOrient a b).1 (losOrient a b).2)
  ⟨bs.isEmpty, bs⟩

/-! ## Claim C5 -/

/-- Helper: the canonical orientation does not depend on the argument
order. -/
lemma losOrient_symm (a b : GridPosition) : losOrient a b = losOrient b a := by
  unfold losOrient
  by_cases h1 : a.x < b.x ∨ (a.x = b.x ∧ a.y ≤ b.y) <;>
    by_cases h2 : b.x < a.x ∨ (b.x = a.x ∧ b.y ≤ a.y)
  · have hab : a = b := by
      rcases h1 with h1 | ⟨h1x, h1y⟩ <;> rcases h2 with h2 | ⟨h2x, h2y⟩ <;>
        first
          | omega
          | (cases a; cases b; simp_all; omega)
    rw [if_pos h1, if_pos h2, hab]
  · rw [if_pos h1, if_neg h2]
  · rw [if_neg h1, if_pos h2]
  · exfalso
    push_neg at h1 h2
    rcases h1 with ⟨h1a, h1b⟩
    rcases h2 with ⟨h2a, h2b⟩
    omega

/-- C5: line of sight is symmetric whenever the elevation rule is symmetric
in the source and target elevations — `compute_los(a, b)` and
`compute_los(b, a)` return the same result. -/
theorem C5_los_symmetric (g : GridMap) (a b : GridPosition) (rule : ElevRule)
    (hsym : ∀ s t c, rule s t c = rule t s c) :
    compute_los g a b rule = compute_los g b a rule := by
  unfold compute_los
  rw [← losOrient_symm a b]
  have hblocked : losCellBlocked g rule a b = losCellBlocked g rule b a := by
    funext p
    unfold losCellBlocked
    rw [hsym]
  have hend : (fun p => decide (p = a) || decide (p = b)) =
      (fun p => decide (p = b) || decide (p = a)) := by
    funext p
    exact Bool.or_comm _ _
  rw [hblocked, hend]

/-- C5 witness: the symmetry theorem applied to a concrete 3×3 open grid,
the endpoints (0,0) and (2,1), and the trivial (symmetric) elevation rule. -/
theorem C5_witness :
    compute_los (GridMap.create 3 3 TerrainKind.Open) ⟨0, 0⟩ ⟨2, 1⟩ (fun _ _ _ => false) =
      compute_los (GridMap.create 3 3 TerrainKind.Open) ⟨2, 1⟩ ⟨0, 0⟩ (fun _ _ _ => false) :=
  C5_los_symmetric (GridMap.create 3 3 TerrainKind.Open) ⟨0, 0⟩ ⟨2, 1⟩
    (fun _ _ _ => false) (fun _ _ _ => rfl)

/-- Cross-check (spec section 8, example 3): from (0,0) to (3,3) with
Blocking cells at (1,1) and (2,2), visibility is blocked and the blocking
cells are exactly those two. -/
theorem los_example_diagonal_wall :
    compute_los
      ⟨4, 4, fun p =>
        if p = (⟨1, 1⟩ : GridPosition) ∨ p = (⟨2, 2⟩ : GridPosition) then
          ⟨TerrainKind.Blocking, none, none⟩
        else ⟨TerrainKind.Open, none, none⟩⟩
      ⟨0, 0⟩ ⟨3, 3⟩ (fun _ _ _ => false) =
      ⟨false, [⟨1, 1⟩, ⟨2, 2⟩]⟩ := by
  decide

/-! ## Area of effect engine (modelled from the spec, section 4.3)

No AOE implementation exists in the repository; the shape geometries,
validation and the configurable metric are modelled from the
specification's words.  Angles are carried in degrees as rationals and
compared in radians. -/

/-- The vector from `o` to `p`. -/
def vecTo (o p : GridPosition) : Int × Int := (p.x - o.x, p.y - o.y)

/-- Dot product of two integer vectors. -/
def dotII (u v : Int × Int) : Int := u.1 * v.1 + u.2 * v.2

/-- Cross product (z-component) of two integer vectors. -/
def crossII (u v : Int × Int) : Int := u.1 * v.2 - u.2 * v.1

/-- Squared euclidean norm of an integer vector. -/
def normSqII (v : Int × Int) : Int := v.1 * v.1 + v.2 * v.2

/-- Euclidean norm of an integer vector, as a real. -/
noncomputable def vecNorm (v : Int × Int) : ℝ := Real.sqrt ((normSqII v : ℝ))

/-- Modelled from the spec: the bearing of vector `v` from facing `f` — the
angle between the two vectors, in radians. -/
noncomputable def bearing (f v : Int × Int) : ℝ :=
  Real.arccos ((dotII f v : ℝ) / (vecNorm f * vecNorm v))

/-- Degrees to radians. -/
noncomputable def degToRad (θ : ℚ) : ℝ := (θ : ℝ) * Real.pi / 180

/-- Modelled from the spec: squared euclidean distance from the center of
cell `p` to the boundary square of the origin cell `o` ("distance of the
origin cell edge, not center"). -/
def edgeDistSq (o p : GridPosition) : ℚ :=
  (max (|((p.x - o.x : Int) : ℚ)| - 1/2) 0) ^ 2 +
    (max (|((p.y - o.y : Int) : ℚ)| - 1/2) 0) ^ 2

/-- Sign of a facing component, with zero mapped to the positive side, used
to anchor a cube at the origin corner extending toward the facing. -/
def dirUnit (z : Int) : Int := if z < 0 then -1 else 1

/-- Elevation of a cell, defaulting to 0 where none is recorded. -/
def elevAt (g : GridMap) (p : GridPosition) : Int := ((g.cells p).elevation).getD 0

/-- Modelled from the spec: the selectable distance metric for Sphere and
Cylinder radii (section 3 and Open Questions). -/
inductive DistanceMetric where
  | euclidean
  | chebyshev
  | fiveFoot
deriving DecidableEq, Repr

/-- The metric's distance between two cells. -/
noncomputable def metricDist (m : DistanceMetric) (p q : GridPosition) : ℝ :=
  match m with
  | .euclidean => GridPosition.distance_to p q
  | .chebyshev => chebyshevDist p q
  | .fiveFoot => fiveFootDist p q

/-- Modelled from the spec: the closed tagged variant of AOE shapes, each
carrying its origin and, for Cone and Line, a facing direction. -/
inductive AoeShape where
  | sphere (origin : GridPosition) (metric : DistanceMetric) (radius : ℚ)
  | cube (origin : GridPosition) (facing : Int × Int) (side : Nat)
  | cone (origin : GridPosition) (facing : Int × Int) (length : ℚ) (halfAngle : ℚ)
  | line (origin : GridPosition) (facing : Int × Int) (length : ℚ) (width : ℚ)
  | cylinder (origin : GridPosition) (metric : DistanceMetric) (radius : ℚ) (height : Nat)

/-- Modelled from the spec: the set of cells each shape affects.
Sphere: cells within the configured metric distance of the origin.
Cube: an axis-aligned `side × side` block cornered at the origin toward the
facing.  Cone: cells within `length` of the origin cell edge whose bearing
from the origin is within the half-angle of the facing, the origin itself
excluded (inclusive boundary).  Line: cells along the facing within the
length and half the width of the facing line.  Cylinder: sphere geometry
intersected with the elevation band of the given height at the origin. -/
def aoeCells (g : GridMap) : AoeShape → Set GridPosition
  | .sphere o m r => {p | g.inBounds p = true ∧ metricDist m o p ≤ (r : ℝ)}
  | .cube o f s => {p | g.inBounds p = true ∧ ∃ i < s, ∃ j < s,
      p.x = o.x + dirUnit f.1 * (i : Int) ∧ p.y = o.y + dirUnit f.2 * (j : Int)}
  | .cone o f L θ => {p | g.inBounds p = true ∧ p ≠ o ∧
      edgeDistSq o p ≤ L ^ 2 ∧ bearing f (vecTo o p) ≤ degToRad θ}
  | .line o f L w => {p | g.inBounds p = true ∧ p ≠ o ∧ 0 ≤ dotII f (vecTo o p) ∧
      ((dotII f (vecTo o p) : ℚ)) ^ 2 ≤ L ^ 2 * (normSqII f : ℚ) ∧
      4 * ((crossII f (vecTo o p) : ℚ)) ^ 2 ≤ w ^ 2 * (normSqII f : ℚ)}
  | .cylinder o m r h => {p | g.inBounds p = true ∧ metricDist m o p ≤ (r : ℝ) ∧
      elevAt g o ≤ elevAt g p ∧ elevAt g p ≤ elevAt g o + (h : Int)}

/-- Modelled from the spec: shape parameters must validate — positive
sizes, half-angle in (0°, 180°], a nonzero facing where one is needed. -/
def shapeValid : AoeShape → Bool
  | .sphere _ _ r => decide (0 < r)
  | .cube _ _ s => decide (0 < s)
  | .cone _ f L θ =>
      decide (0 < L) && decide (0 < θ) && decide (θ ≤ 180) && decide (f ≠ (0, 0))
  | .line _ f L w => decide (0 < L) && decide (0 < w) && decide (f ≠ (0, 0))
  | .cylinder _ _ r h => decide (0 < r) && decide (0 < h)

/-- Modelled from the spec: `compute_aoe(grid, shape)` — parameters failing
validation fail with `InvalidAction` before any geometry is computed;
otherwise the affected cell set is returned. -/
def compute_aoe (g : GridMap) (s : AoeShape) : Except DndError (Set GridPosition) :=
  if shapeValid s then .ok (aoeCells g s)
  else .error (.invalidAction ("invalid shape parameters"))

/-! ## Claims C6 and C7 -/

/-- C6: the cone boundary is inclusive — with valid cone parameters, a cell
at bearing exactly the half-angle (and within reach) is affected, a cell
whose bearing strictly exceeds the half-angle is not, and the origin cell
itself is never affected. -/
theorem C6_cone_boundary_inclusive (g : GridMap) (o : GridPosition)
    (f : Int × Int) (L θ : ℚ) (p : GridPosition)
    (hv : shapeValid (AoeShape.cone o f L θ) = true) :
    (compute_aoe g (AoeShape.cone o f L θ) = .ok (aoeCells g (AoeShape.cone o f L θ))) ∧
    (g.inBounds p = true → p ≠ o → edgeDistSq o p ≤ L ^ 2 →
      bearing f (vecTo o p) = degToRad θ →
      p ∈ aoeCells g (AoeShape.cone o f L θ)) ∧
    (degToRad θ < bearing f (vecTo o p) →
      p ∉ aoeCells g (AoeShape.cone o f L θ)) ∧
    o ∉ aoeCells g (AoeShape.cone o f L θ) := by
  refine ⟨?_, ?_, ?_, ?_⟩
  · unfold compute_aoe
    rw [if_pos hv]
  · intro hin hne hdist hbear
    exact ⟨hin, hne, hdist, le_of_eq hbear⟩
  · intro hgt hmem
    exact absurd hmem.2.2.2 (not_le.mpr hgt)
  · intro hmem
    exact hmem.2.1 rfl

/-- C6 witness: on a 5×5 open grid, the cone at (0,0) facing east with
length 3 and half-angle 45° affects the cell (1,1), whose bearing is
exactly 45°. -/
theorem C6_witness :
    (⟨1, 1⟩ : GridPosition) ∈
      aoeCells (GridMap.create 5 5 TerrainKind.Open)
        (AoeShape.cone ⟨0, 0⟩ (1, 0) 3 45) := by
  have hbear : bearing (1, 0) (vecTo ⟨0, 0⟩ ⟨1, 1⟩) = degToRad 45 := by
    have hs2 : Real.sqrt 2 * Real.sqrt 2 = 2 := Real.mul_self_sqrt (by norm_num)
    have hval : ((dotII (1, 0) (vecTo ⟨0, 0⟩ ⟨1, 1⟩) : Int) : ℝ) /
        (vecNorm (1, 0) * vecNorm (vecTo ⟨0, 0⟩ ⟨1, 1⟩)) = Real.sqrt 2 / 2 := by
      have h1 : vecNorm (1, 0) = 1 := by
        unfold vecNorm normSqII
        norm_num
      have h2 : vecNorm (vecTo ⟨0, 0⟩ ⟨1, 1⟩) = Real.sqrt 2 := by
        unfold vecNorm normSqII vecTo
        norm_num
      rw [h1, h2, one_mul]
      rw [show ((dotII (1, 0) (vecTo ⟨0, 0⟩ ⟨1, 1⟩) : Int) : ℝ) = 1 by
        unfold dotII vecTo; norm_num]
      rw [div_eq_div_iff (by positivity) (by norm_num), one_mul]
      exact hs2.symm
    unfold bearing
    rw [hval, ← Real.cos_pi_div_four,
      Real.arccos_cos (by positivity) (by linarith [Real.pi_pos])]
    unfold degToRad
    push_cast
    ring
  exact (C6_cone_boundary_inclusive (GridMap.create 5 5 TerrainKind.Open)
      ⟨0, 0⟩ (1, 0) 3 45 ⟨1, 1⟩ (by decide)).2.1
    (by decide) (by decide)
    (by norm_num [edgeDistSq])
    hbear

/-- Helper: the squared norm of an integer vector is nonnegative. -/
lemma normSqII_nonneg (v : Int × Int) : 0 ≤ normSqII v := by
  unfold normSqII
  nlinarith [mul_self_nonneg v.1, mul_self_nonneg v.2]

/-- C7: for Sphere, Cube, Line and Cylinder, enlarging the size parameter
(radius, side, length, radius) enlarges the affected cell set; and a valid
shape's `compute_aoe` returns exactly that cell set. -/
theorem C7_aoe_monotone :
    (∀ (g : GridMap) (o : GridPosition) (m : DistanceMetric) (r1 r2 : ℚ),
      r1 ≤ r2 →
      aoeCells g (AoeShape.sphere o m r1) ⊆ aoeCells g (AoeShape.sphere o m r2)) ∧
    (∀ (g : GridMap) (o : GridPosition) (f : Int × Int) (s1 s2 : Nat),
      s1 ≤ s2 →
      aoeCells g (AoeShape.cube o f s1) ⊆ aoeCells g (AoeShape.cube o f s2)) ∧
    (∀ (g : GridMap) (o : GridPosition) (f : Int × Int) (w L1 L2 : ℚ),
      0 ≤ L1 → L1 ≤ L2 →
      aoeCells g (AoeShape.line o f L1 w) ⊆ aoeCells g (AoeShape.line o f L2 w)) ∧
    (∀ (g : GridMap) (o : GridPosition) (m : DistanceMetric) (h : Nat) (r1 r2 : ℚ),
      r1 ≤ r2 →
      aoeCells g (AoeShape.cylinder o m r1 h) ⊆ aoeCells g (AoeShape.cylinder o m r2 h)) ∧
    (∀ (g : GridMap) (s : AoeShape), shapeValid s = true →
      compute_aoe g s = .ok (aoeCells g s)) := by
  refine ⟨?_, ?_, ?_, ?_, ?_⟩
  · rintro g o m r1 r2 hr p ⟨hin, hd⟩
    exact ⟨hin, le_trans hd (by exact_mod_cast hr)⟩
  · rintro g o f s1 s2 hs p ⟨hin, i, hi, j, hj, hx, hy⟩
    exact ⟨hin, i, lt_of_lt_of_le hi hs, j, lt_of_lt_of_le hj hs, hx, hy⟩
  · rintro g o f w L1 L2 h0 hL p ⟨hin, hne, hd0, hdot, hcross⟩
    refine ⟨hin, hne, hd0, ?_, hcross⟩
    refine le_trans hdot (mul_le_mul_of_nonneg_right ?_ ?_)
    · exact pow_le_pow_left₀ h0 hL 2
    · exact_mod_cast normSqII_nonneg f
  · rintro g o m h r1 r2 hr p ⟨hin, hd, he1, he2⟩
    exact ⟨hin, le_trans hd (by exact_mod_cast hr), he1, he2⟩
  · intro g s hv
    unfold compute_aoe
    rw [if_pos hv]

/-! ## Pathfinding engine (modelled from the spec, section 4.4)

No pathfinding implementation exists in the repository.  The engine is
modelled from the specification's words: cost-aware search over the
8-connected grid (4-connected when diagonals are disabled), orthogonal
steps cost 1, diagonals cost 1 under `equal` and alternate 1/2 under
`variant5e` (tracked by a per-path diagonal parity), entering Difficult
terrain doubles the step cost, Blocking or occupied cells are excluded
entirely, and the movement budget selects one of the three flagged
outcomes.  The minimum-cost table is computed by iterated relaxation of
every edge, run for enough rounds to both stabilise reachability and cover
every path that fits in the budget. -/

/-- Modelled from the spec: the diagonal-cost variant selector. -/
inductive DiagonalRule where
  | disabled
  | equal
  | variant5e
deriving DecidableEq, Repr

/-- Modelled from the spec: the flagged pathfinding outcome — `Reached`
with the full path and its cost, `BudgetExceeded` with the path truncated
to the budget, or `Unreachable` (which carries no partial path at all). -/
inductive PathResult where
  | reached (path : List GridPosition) (cost : Nat)
  | budgetExceeded (path : List GridPosition) (cost : Nat)
  | unreachable
deriving DecidableEq, Repr

/-- The cells of a result: `Unreachable` has an empty path. -/
def PathResult.pathCells : PathResult → List GridPosition
  | .reached p _ => p
  | .budgetExceeded p _ => p
  | .unreachable => []

/-- A search node: a cell plus the parity of diagonal steps taken so far
(the parity only affects costs under `variant5e`). -/
abbrev PNode := GridPosition × Bool

/-- Modelled from the spec: a cell the mover may stand on — in bounds, not
Blocking, not occupied by another entity. -/
def walkable (g : GridMap) (mover : Option EntityId) (p : GridPosition) : Bool :=
  g.inBounds p && !decide ((g.cells p).terrain = TerrainKind.Blocking) &&
    (decide ((g.cells p).occupant = none) || decide ((g.cells p).occupant = mover))

/-- Modelled from the spec: entering a Difficult cell doubles the step
cost. -/
def enterFactor (g : GridMap) (q : GridPosition) : Nat :=
  if (g.cells q).terrain = TerrainKind.Difficult then 2 else 1

/-- The four orthogonal step directions. -/
def orthoDirs : List (Int × Int) := [(1, 0), (-1, 0), (0, 1), (0, -1)]

/-- The four diagonal step directions. -/
def diagDirs : List (Int × Int) := [(1, 1), (1, -1), (-1, 1), (-1, -1)]

/-- Modelled from the spec: the outgoing edges of a search node with their
movement costs.  Orthogonal steps cost the entry factor; diagonal steps are
dropped under `disabled`, cost the entry factor under `equal`, and
alternate 1/2 (times the entry factor) under `variant5e`, flipping the
parity. -/
def neighborsOf (g : GridMap) (mover : Option EntityId) (rule : DiagonalRule)
    (n : PNode) : List (PNode × Nat) :=
  let p := n.1
  let par := n.2
  let ortho := orthoDirs.filterMap (fun d =>
    let q : GridPosition := ⟨p.x + d.1, p.y + d.2⟩
    if walkable g mover q then some (((q, par) : PNode), enterFactor g q) else none)
  let diag :=
    if rule = DiagonalRule.disabled then []
    else diagDirs.filterMap (fun d =>
      let q : GridPosition := ⟨p.x + d.1, p.y + d.2⟩
      if walkable g mover q then
        let base : Nat := if rule = DiagonalRule.variant5e then (if par then 2 else 1) else 1
        let par2 : Bool := if rule = DiagonalRule.variant5e then !par else par
        some (((q, par2) : PNode), base * enterFactor g q)
      else none)
  ortho ++ diag

/-- Every in-bounds position of the grid. -/
def allPositions (g : GridMap) : List GridPosition :=
  (List.range g.width).flatMap fun (i : Nat) =>
    (List.range g.height).map fun (j : Nat) => ⟨(i : Int), (j : Int)⟩

/-- Helper: first projection of a position literal. -/
lemma gp_x_mk (a b : Int) : (GridPosition.mk a b).x = a := rfl

/-- Helper: second projection of a position literal. -/
lemma gp_y_mk (a b : Int) : (GridPosition.mk a b).y = b := rfl

/-- Every search node of the grid: each in-bounds position with both
parities. -/
def nodeList (g : GridMap) : List PNode :=
  (allPositions g).flatMap fun p => [(p, false), (p, true)]

/-- A weighted path: each element is a node together with the cost of the
edge that entered it (0 for the start element). -/
abbrev WPath := List (PNode × Nat)

/-- A distance-table entry: the cost reached and a realising path. -/
abbrev Entry := Nat × WPath

/-- The distance table of the search. -/
abbrev DMap := PNode → Option Entry

/-- Total cost of a weighted path. -/
def wcost (pa : WPath) : Nat := (pa.map (fun e => e.2)).sum

/-- The final node of a weighted path (junk default for the empty path). -/
def pathEnd (pa : WPath) : PNode := (pa.getLastD (((⟨0, 0⟩ : GridPosition), false), 0)).1

/-- The final node of a weighted path continued from `m`. -/
def chainEnd (m : PNode) (pa : WPath) : PNode := (pa.getLastD (m, 0)).1

/-- The tail of a weighted path is a chain of edges from the given node. -/
def chainB (g : GridMap) (mover : Option EntityId) (rule : DiagonalRule) :
    PNode → WPath → Bool
  | _, [] => true
  | m, e :: rest =>
      decide (e ∈ neighborsOf g mover rule m) && chainB g mover rule e.1 rest

/-- The weighted path is a valid walk of the search graph: nonempty, begins
at the start node with edge cost 0, and each later element is an edge from
its predecessor. -/
def validPathB (g : GridMap) (mover : Option EntityId) (rule : DiagonalRule)
    (start : GridPosition) (pa : WPath) : Bool :=
  match pa with
  | [] => false
  | e :: rest =>
      walkable g mover start && decide (e = (((start, false) : PNode), 0)) &&
        chainB g mover rule e.1 rest

/-- Keeps the cheaper of two optional entries (the first on ties). -/
def entryBetter : Option Entry → Option Entry → Option Entry
  | none, b => b
  | some a, none => some a
  | some a, some b => if b.1 < a.1 then some b else some a

/-- All edges of the graph that enter `n`: the source node and the edge
cost. -/
def edgesInto (g : GridMap) (mover : Option EntityId) (rule : DiagonalRule)
    (n : PNode) : List (PNode × Nat) :=
  (nodeList g).flatMap fun m =>
    (neighborsOf g mover rule m).filterMap fun e =>
      if e.1 = n then some (m, e.2) else none

/-- One relaxation of one incoming edge `e = (m, w)`: if `m` has an entry,
offer `cost m + w` with the extended path. -/
def relaxStep (d : DMap) (n : PNode) (best : Option Entry) (e : PNode × Nat) :
    Option Entry :=
  match d e.1 with
  | none => best
  | some (c, pa) => entryBetter best (some (c + e.2, pa ++ [(n, e.2)]))

/-- One relaxation round: each node keeps the best of its own entry and
every incoming edge's offer. -/
def relax (g : GridMap) (mover : Option EntityId) (rule : DiagonalRule)
    (d : DMap) : DMap :=
  fun n => (edgesInto g mover rule n).foldl (relaxStep d n) (d n)

/-- The initial table: the start node at cost 0 with the one-element path. -/
def initMap (start : GridPosition) : DMap :=
  fun n =>
    if n = (((start, false) : PNode)) then some (0, [(((start, false) : PNode), 0)])
    else none

/-- The table after `k` relaxation rounds. -/
def distMap (g : GridMap) (mover : Option EntityId) (rule : DiagonalRule)
    (start : GridPosition) (k : Nat) : DMap :=
  (relax g mover rule)^[k] (initMap start)

/-- The best entry at the goal cell, over both parities. -/
def goalEntry (d : DMap) (goal : GridPosition) : Option Entry :=
  entryBetter (d (goal, false)) (d (goal, true))

/-- Truncates a weighted path to the longest prefix whose cumulative cost
stays within the budget, returning the prefix and its cumulative cost. -/
def truncW (budget : Nat) : Nat → WPath → WPath × Nat
  | spent, [] => ([], spent)
  | spent, e :: rest =>
      if spent + e.2 ≤ budget then
        let r := truncW budget (spent + e.2) rest
        (e :: r.1, r.2)
      else ([], spent)

/-- Rounds of relaxation to run: enough to stabilise reachability (one more
than the number of nodes) and to cover every path within budget. -/
def searchRounds (g : GridMap) (budget : Nat) : Nat :=
  (nodeList g).toFinset.card + budget + 1

/-- Modelled from the spec: `find_path(grid, start, goal, mover, budget,
diagonal_rule)` — `Reached` with the full path and its cost when the goal
is reached within budget, `BudgetExceeded` with the path truncated to the
budget when it is reachable only beyond budget, `Unreachable` (empty path)
when it is not reachable at all. -/
def find_path (g : GridMap) (start goal : GridPosition) (mover : Option EntityId)
    (budget : Nat) (rule : DiagonalRule) : PathResult :=
  if walkable g mover start then
    match goalEntry (distMap g mover rule start (searchRounds g budget)) goal with
    | some (c, pa) =>
        if c ≤ budget then .reached (pa.map (fun e => e.1.1)) c
        else
          .budgetExceeded ((truncW budget 0 pa).1.map (fun e => e.1.1))
            (truncW budget 0 pa).2
    | none => .unreachable
  else .unreachable

/-- Modelled from the spec: the goal is reachable from the start. -/
def ReachableP (g : GridMap) (mover : Option EntityId) (rule : DiagonalRule)
    (start goal : GridPosition) : Prop :=
  ∃ pa, validPathB g mover rule start pa = true ∧ (pathEnd pa).1 = goal

/-- Modelled from the spec: the goal is reachable within the movement
budget. -/
def ReachedWithin (g : GridMap) (mover : Option EntityId) (rule : DiagonalRule)
    (start goal : GridPosition) (budget : Nat) : Prop :=
  ∃ pa, validPathB g mover rule start pa = true ∧ (pathEnd pa).1 = goal ∧
    wcost pa ≤ budget

/-! ### Basic facts about the search graph -/

/-- Cost of an optional entry, infinite when absent. -/
def ocost : Option Entry → ℕ∞
  | none => ⊤
  | some e => (e.1 : ℕ∞)

/-- Helper: `entryBetter` returns one of its arguments. -/
lemma entryBetter_eq_or (a b : Option Entry) :
    entryBetter a b = a ∨ entryBetter a b = b := by
  rcases a with _ | a
  · right; rfl
  · rcases b with _ | b
    · left; rfl
    · simp only [entryBetter]
      split
      · right; rfl
      · left; rfl

/-- Helper: `entryBetter` does not cost more than the left argument. -/
lemma ocost_entryBetter_left (a b : Option Entry) :
    ocost (entryBetter a b) ≤ ocost a := by
  rcases a with _ | a
  · simp [entryBetter, ocost, le_top]
  · rcases b with _ | b
    · simp [entryBetter]
    · simp only [entryBetter]
      split
      · next h => simp only [ocost]; exact_mod_cast le_of_lt h
      · exact le_refl _

/-- Helper: `entryBetter` does not cost more than the right argument. -/
lemma ocost_entryBetter_right (a b : Option Entry) :
    ocost (entryBetter a b) ≤ ocost b := by
  rcases a with _ | a
  · exact le_refl _
  · rcases b with _ | b
    · simp [entryBetter, ocost, le_top]
    · simp only [entryBetter]
      split
      · exact le_refl _
      · next h => simp only [ocost]; exact_mod_cast le_of_not_lt h

/-- Helper: `entryBetter` is defined iff one side is. -/
lemma entryBetter_isSome (a b : Option Entry) :
    (entryBetter a b).isSome = (a.isSome || b.isSome) := by
  rcases a with _ | a
  · simp [entryBetter]
  · rcases b with _ | b
    · simp [entryBetter]
    · simp only [entryBetter]
      split <;> simp

/-- Helper: the step-cost factor is at least 1. -/
lemma enterFactor_pos (g : GridMap) (q : GridPosition) : 1 ≤ enterFactor g q := by
  unfold enterFactor
  split <;> norm_num

/-- Helper: every edge leads to a walkable cell and costs at least 1. -/
lemma mem_neighborsOf {g : GridMap} {mover : Option EntityId} {rule : DiagonalRule}
    {m : PNode} {e : PNode × Nat} (he : e ∈ neighborsOf g mover rule m) :
    walkable g mover e.1.1 = true ∧ 1 ≤ e.2 := by
  simp only [neighborsOf, List.mem_append] at he
  rcases he with h | h
  · rcases List.mem_filterMap.mp h with ⟨d, _, hd⟩
    split at hd
    · next hw =>
      injection hd with hd
      subst hd
      exact ⟨hw, enterFactor_pos g _⟩
    · exact absurd hd Option.noConfusion
  · by_cases hr : rule = DiagonalRule.disabled
    · rw [if_pos hr] at h
      cases h
    · rw [if_neg hr] at h
      rcases List.mem_filterMap.mp h with ⟨d, _, hd⟩
      split at hd
      · next hw =>
        injection hd with hd
        subst hd
        refine ⟨hw, ?_⟩
        have h1 : 1 ≤ (if rule = DiagonalRule.variant5e then
            (if m.2 then 2 else 1) else 1) := by
          split
          · split <;> norm_num
          · norm_num
        calc 1 = 1 * 1 := by norm_num
        _ ≤ _ := Nat.mul_le_mul h1 (enterFactor_pos g _)
      · exact absurd hd Option.noConfusion

/-- Helper: membership in the position list is exactly in-bounds. -/
lemma mem_allPositions {g : GridMap} {p : GridPosition} :
    p ∈ allPositions g ↔ g.inBounds p = true := by
  constructor
  · intro h
    obtain ⟨i, hi, h2⟩ := List.mem_flatMap.mp h
    obtain ⟨j, hj, h3⟩ := List.mem_map.mp h2
    rw [List.mem_range] at hi hj
    subst h3
    unfold GridMap.inBounds
    simp only [Bool.and_eq_true, decide_eq_true_eq, gp_x_mk, gp_y_mk]
    refine ⟨⟨⟨by omega, by omega⟩, by omega⟩, by omega⟩
  · intro h
    unfold GridMap.inBounds at h
    simp only [Bool.and_eq_true, decide_eq_true_eq] at h
    obtain ⟨⟨⟨h1, h2⟩, h3⟩, h4⟩ := h
    refine List.mem_flatMap.mpr ⟨p.x.toNat, List.mem_range.mpr (by omega), ?_⟩
    refine List.mem_map.mpr ⟨p.y.toNat, List.mem_range.mpr (by omega), ?_⟩
    obtain ⟨px, py⟩ := p
    simp only [gp_x_mk, gp_y_mk] at h1 h2 h3 h4 ⊢
    simp only [GridPosition.mk.injEq]
    constructor <;> omega

/-- Helper: a walkable cell's nodes are in the node list. -/
lemma walkable_mem_nodeList {g : GridMap} {mover : Option EntityId}
    {p : GridPosition} (h : walkable g mover p = true) (b : Bool) :
    ((p, b) : PNode) ∈ nodeList g := by
  have hib : g.inBounds p = true := by
    unfold walkable at h
    simp only [Bool.and_eq_true] at h
    exact h.1.1
  simp only [nodeList, List.mem_flatMap]
  exact ⟨p, mem_allPositions.mpr hib, by cases b <;> simp⟩

/-- Helper: the incoming-edge list pairs node-list sources with the edges
into the target. -/
lemma mem_edgesInto {g : GridMap} {mover : Option EntityId} {rule : DiagonalRule}
    {n m : PNode} {w : Nat} :
    ((m, w) : PNode × Nat) ∈ edgesInto g mover rule n ↔
      m ∈ nodeList g ∧ ((n, w) : PNode × Nat) ∈ neighborsOf g mover rule m := by
  simp only [edgesInto, List.mem_flatMap, List.mem_filterMap]
  constructor
  · rintro ⟨m2, hm2, e, he, hif⟩
    split at hif
    · next hEq =>
      injection hif with hif
      have hm : m2 = m := congrArg Prod.fst hif
      have hw : e.2 = w := congrArg Prod.snd hif
      subst hm
      have : e = ((n, w) : PNode × Nat) := by
        cases e
        simp only [Prod.mk.injEq]
        exact ⟨hEq, hw⟩
      subst this
      exact ⟨hm2, he⟩
    · exact absurd hif Option.noConfusion
  · rintro ⟨hm, he⟩
    exact ⟨m, hm, (n, w), he, by rw [if_pos rfl]⟩

/-! ### The relaxation rounds -/

/-- Helper: one relaxation step never worsens the running best. -/
lemma ocost_relaxStep_le (d : DMap) (n : PNode) (best : Option Entry)
    (e : PNode × Nat) : ocost (relaxStep d n best e) ≤ ocost best := by
  unfold relaxStep
  split
  · exact le_refl _
  · exact ocost_entryBetter_left _ _

/-- Helper: folding relaxation steps never worsens the initial value. -/
lemma ocost_foldl_relaxStep_le (d : DMap) (n : PNode) (l : List (PNode × Nat))
    (init : Option Entry) :
    ocost (l.foldl (relaxStep d n) init) ≤ ocost init := by
  induction l generalizing init with
  | nil => exact le_refl _
  | cons e rest ih => exact le_trans (ih _) (ocost_relaxStep_le d n init e)

/-- Helper: folding over a list containing the edge `(m, w)` brings the
cost at `n` down to at most `cost m + w`. -/
lemma ocost_foldl_relaxStep_le_edge {d : DMap} {n : PNode}
    {l : List (PNode × Nat)} {m : PNode} {w c : Nat} {pa : WPath}
    (hml : ((m, w) : PNode × Nat) ∈ l) (hdm : d m = some (c, pa))
    (init : Option Entry) :
    ocost (l.foldl (relaxStep d n) init) ≤ ((c + w : Nat) : ℕ∞) := by
  induction l generalizing init with
  | nil => cases hml
  | cons e rest ih =>
    rcases List.mem_cons.mp hml with rfl | hml2
    · refine le_trans (ocost_foldl_relaxStep_le d n rest _) ?_
      show ocost (relaxStep d n init (m, w)) ≤ _
      unfold relaxStep
      rw [show ((m, w) : PNode × Nat).1 = m from rfl, hdm]
      exact le_trans (ocost_entryBetter_right _ _) (by simp [ocost])
    · exact ih hml2 _

/-- Helper: one relaxation step is defined iff the best or the edge source
is. -/
lemma isSome_relaxStep (d : DMap) (n : PNode) (best : Option Entry)
    (e : PNode × Nat) :
    (relaxStep d n best e).isSome = (best.isSome || (d e.1).isSome) := by
  unfold relaxStep
  split
  · next h => rw [h]; simp
  · next c pa h => rw [h, entryBetter_isSome]; simp

/-- Helper: the fold is defined iff the initial value is or some edge
source is. -/
lemma isSome_foldl_relaxStep (d : DMap) (n : PNode) (l : List (PNode × Nat))
    (init : Option Entry) :
    (l.foldl (relaxStep d n) init).isSome =
      (init.isSome || l.any (fun e => (d e.1).isSome)) := by
  induction l generalizing init with
  | nil => simp
  | cons e rest ih =>
    simp only [List.foldl_cons, List.any_cons]
    rw [ih, isSome_relaxStep, Bool.or_assoc]

/-- Helper: a relaxation round never worsens any node's cost. -/
lemma ocost_relax_le (g : GridMap) (mover : Option EntityId)
    (rule : DiagonalRule) (d : DMap) (n : PNode) :
    ocost (relax g mover rule d n) ≤ ocost (d n) :=
  ocost_foldl_relaxStep_le _ _ _ _

/-- Helper: a relaxation round applies every edge of the graph. -/
lemma ocost_relax_le_edge {g : GridMap} {mover : Option EntityId}
    {rule : DiagonalRule} {d : DMap} {m n : PNode} {w : Nat}
    (hm : m ∈ nodeList g)
    (he : ((n, w) : PNode × Nat) ∈ neighborsOf g mover rule m) :
    ocost (relax g mover rule d n) ≤ ocost (d m) + (w : ℕ∞) := by
  rcases hdm : d m with _ | ⟨c, pa⟩
  · simp [ocost, top_add, le_top]
  · have hb := ocost_foldl_relaxStep_le_edge (n := n)
      (mem_edgesInto.mpr ⟨hm, he⟩) hdm (d n)
    refine le_trans hb ?_
    simp only [ocost]
    rw [Nat.cast_add]

/-! ### Weighted-path facts -/

/-- Helper: the chain end after a cons steps through the head. -/
lemma chainEnd_cons (m : PNode) (e : PNode × Nat) (rest : WPath) :
    chainEnd m (e :: rest) = chainEnd e.1 rest := by
  unfold chainEnd
  rw [List.getLastD_cons]
  cases rest with
  | nil => rfl
  | cons f rs => rw [List.getLastD_cons, List.getLastD_cons]

/-- Helper: the path end after a cons is the chain end of the tail. -/
lemma pathEnd_cons (e : PNode × Nat) (rest : WPath) :
    pathEnd (e :: rest) = chainEnd e.1 rest := by
  unfold pathEnd chainEnd
  rw [List.getLastD_cons]
  cases rest with
  | nil => rfl
  | cons f rs => rw [List.getLastD_cons, List.getLastD_cons]

/-- Helper: the path end of a path extended by one element. -/
lemma pathEnd_append_singleton (l : WPath) (e : PNode × Nat) :
    pathEnd (l ++ [e]) = e.1 := by
  unfold pathEnd
  rw [List.getLastD_concat]

/-- Helper: path cost distributes over append. -/
lemma wcost_append (l1 l2 : WPath) : wcost (l1 ++ l2) = wcost l1 + wcost l2 := by
  unfold wcost
  rw [List.map_append, List.sum_append]

/-- Helper: the chain test distributes over append. -/
lemma chainB_append (g : GridMap) (mover : Option EntityId) (rule : DiagonalRule)
    (l1 l2 : WPath) (m : PNode) :
    chainB g mover rule m (l1 ++ l2) =
      (chainB g mover rule m l1 && chainB g mover rule (chainEnd m l1) l2) := by
  induction l1 generalizing m with
  | nil =>
    simp only [List.nil_append, chainB]
    rw [show chainEnd m [] = m from rfl, Bool.true_and]
  | cons e rest ih =>
    simp only [List.cons_append, chainB, List.append_eq]
    rw [ih e.1, chainEnd_cons, Bool.and_assoc]

/-- Helper: how a valid path decomposes at its last element — it is either
the one-element start path, or a valid path extended by one edge from its
end. -/
lemma validPathB_snoc (g : GridMap) (mover : Option EntityId)
    (rule : DiagonalRule) (start : GridPosition) (l : WPath) (e : PNode × Nat) :
    validPathB g mover rule start (l ++ [e]) = true ↔
      ((l = [] ∧ walkable g mover start = true ∧
          e = ((((start, false) : PNode)), 0)) ∨
        (validPathB g mover rule start l = true ∧
          e ∈ neighborsOf g mover rule (pathEnd l))) := by
  cases l with
  | nil =>
    simp only [List.nil_append]
    show (walkable g mover start && decide (e = (((start, false) : PNode), 0)) &&
        chainB g mover rule e.1 []) = true ↔ _
    simp only [chainB, Bool.and_true, Bool.and_eq_true, decide_eq_true_eq]
    constructor
    · rintro ⟨hw, he⟩
      exact Or.inl ⟨by trivial, hw, he⟩
    · rintro (⟨-, hw, he⟩ | ⟨hv, -⟩)
      · exact ⟨hw, he⟩
      · exact absurd hv (by simp [validPathB])
  | cons f rest =>
    simp only [List.cons_append]
    show (walkable g mover start && decide (f = (((start, false) : PNode), 0)) &&
        chainB g mover rule f.1 (rest ++ [e])) = true ↔ _
    rw [chainB_append]
    have hend : chainEnd f.1 rest = pathEnd (f :: rest) := (pathEnd_cons f rest).symm
    simp only [chainB, Bool.and_true, hend, Bool.and_eq_true, decide_eq_true_eq]
    constructor
    · rintro ⟨⟨hw, hf⟩, hch, hee⟩
      refine Or.inr ⟨?_, hee⟩
      show (walkable g mover start && decide (f = (((start, false) : PNode), 0)) &&
          chainB g mover rule f.1 rest) = true
      subst hf
      simp only [Bool.and_eq_true, decide_eq_true_eq]
      exact ⟨⟨hw, trivial⟩, hch⟩
    · rintro (⟨hcon, -, -⟩ | ⟨hv, hee⟩)
      · exact absurd hcon (by simp)
      · have hv2 : (walkable g mover start && decide (f = (((start, false) : PNode), 0)) &&
            chainB g mover rule f.1 rest) = true := hv
        simp only [Bool.and_eq_true, decide_eq_true_eq] at hv2
        exact ⟨⟨hv2.1.1, hv2.1.2⟩, hv2.2, hee⟩

/-- Helper: a valid path needs a walkable start. -/
lemma validPathB_walkable {g : GridMap} {mover : Option EntityId}
    {rule : DiagonalRule} {start : GridPosition} {pa : WPath}
    (h : validPathB g mover rule start pa = true) :
    walkable g mover start = true := by
  cases pa with
  | nil => exact absurd h (by simp [validPathB])
  | cons e rest =>
    have h2 : (walkable g mover start && decide (e = (((start, false) : PNode), 0)) &&
        chainB g mover rule e.1 rest) = true := h
    simp only [Bool.and_eq_true] at h2
    exact h2.1.1

/-- Helper: the end of a valid path is a node of the grid. -/
lemma pathEnd_mem_nodeList {g : GridMap} {mover : Option EntityId}
    {rule : DiagonalRule} {start : GridPosition} {pa : WPath}
    (h : validPathB g mover rule start pa = true) : pathEnd pa ∈ nodeList g := by
  induction pa using List.reverseRecOn with
  | nil => exact absurd h (by simp [validPathB])
  | append_singleton l e ih =>
    rcases (validPathB_snoc g mover rule start l e).mp h with ⟨-, hw, he⟩ | ⟨hvl, hedge⟩
    · subst he
      rw [pathEnd_append_singleton]
      exact walkable_mem_nodeList hw false
    · rw [pathEnd_append_singleton]
      have hwk := (mem_neighborsOf hedge).1
      simpa using walkable_mem_nodeList hwk e.1.2

/-- Helper: positive edge costs bound a valid path's length by its cost. -/
lemma length_le_wcost {g : GridMap} {mover : Option EntityId}
    {rule : DiagonalRule} {start : GridPosition} {pa : WPath}
    (h : validPathB g mover rule start pa = true) : pa.length ≤ wcost pa + 1 := by
  induction pa using List.reverseRecOn with
  | nil => simp
  | append_singleton l e ih =>
    rcases (validPathB_snoc g mover rule start l e).mp h with ⟨hl0, -, -⟩ | ⟨hvl, hedge⟩
    · subst hl0
      simp [wcost]
    · have h1 := ih hvl
      have h2 : 1 ≤ e.2 := (mem_neighborsOf hedge).2
      have h3 : wcost (l ++ [e]) = wcost l + e.2 := by
        rw [wcost_append]
        simp [wcost]
      rw [List.length_append, h3]
      simp only [List.length_singleton]
      omega

/-! ### Soundness of the distance table -/

/-- The table only holds entries realised by valid paths ending at the
entry's node with the entry's cost. -/
def GoodMap (g : GridMap) (mover : Option EntityId) (rule : DiagonalRule)
    (start : GridPosition) (d : DMap) : Prop :=
  ∀ n c pa, d n = some (c, pa) →
    validPathB g mover rule start pa = true ∧ pathEnd pa = n ∧ wcost pa = c

/-- Helper: the initial table is sound. -/
lemma good_init (g : GridMap) (mover : Option EntityId) (rule : DiagonalRule)
    (start : GridPosition) (hw : walkable g mover start = true) :
    GoodMap g mover rule start (initMap start) := by
  intro n c pa h
  unfold initMap at h
  split at h
  · next hn =>
    injection h with h
    have hc : (0 : Nat) = c := congrArg Prod.fst h
    have hpa : [(((start, false) : PNode), 0)] = pa := congrArg Prod.snd h
    subst hn
    rw [← hc, ← hpa]
    refine ⟨?_, rfl, rfl⟩
    show (walkable g mover start &&
      decide ((((start, false) : PNode), 0) = (((start, false) : PNode), 0)) &&
      chainB g mover rule (start, false) []) = true
    simp [hw, chainB]
  · exact absurd h Option.noConfusion

/-- Helper: folding sound relaxation steps keeps the running best sound. -/
lemma good_foldl {g : GridMap} {mover : Option EntityId} {rule : DiagonalRule}
    {start : GridPosition} {d : DMap} {n : PNode}
    (hd : GoodMap g mover rule start d) (l : List (PNode × Nat))
    (hl : ∀ e ∈ l, e ∈ edgesInto g mover rule n) (init : Option Entry)
    (hinit : ∀ c pa, init = some (c, pa) →
      validPathB g mover rule start pa = true ∧ pathEnd pa = n ∧ wcost pa = c) :
    ∀ c pa, l.foldl (relaxStep d n) init = some (c, pa) →
      validPathB g mover rule start pa = true ∧ pathEnd pa = n ∧ wcost pa = c := by
  induction l generalizing init with
  | nil => exact hinit
  | cons e rest ih =>
    refine ih (fun e2 he2 => hl e2 (List.mem_cons_of_mem _ he2)) _ ?_
    intro c pa hstep
    unfold relaxStep at hstep
    split at hstep
    · exact hinit _ _ hstep
    · next c0 pa0 hde =>
      rcases entryBetter_eq_or init (some (c0 + e.2, pa0 ++ [(n, e.2)])) with hbo | hbo
      · rw [hbo] at hstep
        exact hinit _ _ hstep
      · rw [hbo] at hstep
        injection hstep with hstep
        have hc : c0 + e.2 = c := congrArg Prod.fst hstep
        have hpa : pa0 ++ [(n, e.2)] = pa := congrArg Prod.snd hstep
        obtain ⟨hv0, hend0, hcost0⟩ := hd e.1 c0 pa0 hde
        obtain ⟨m0, w0⟩ := e
        obtain ⟨-, hnb⟩ := mem_edgesInto.mp (hl (m0, w0) (List.mem_cons_self _ _))
        rw [← hc, ← hpa]
        refine ⟨?_, pathEnd_append_singleton _ _, ?_⟩
        · refine (validPathB_snoc g mover rule start pa0 ((n, w0))).mpr (Or.inr ⟨hv0, ?_⟩)
          rw [hend0]
          exact hnb
        · rw [wcost_append, hcost0]
          simp [wcost]

/-- Helper: a relaxation round keeps the table sound. -/
lemma good_relax {g : GridMap} {mover : Option EntityId} {rule : DiagonalRule}
    {start : GridPosition} {d : DMap}
    (hd : GoodMap g mover rule start d) :
    GoodMap g mover rule start (relax g mover rule d) := by
  intro n c pa h
  unfold relax at h
  exact good_foldl hd _ (fun e he => he) (d n) (hd n) c pa h

/-- Helper: every relaxation table is sound. -/
lemma good_distMap (g : GridMap) (mover : Option EntityId) (rule : DiagonalRule)
    (start : GridPosition) (hw : walkable g mover start = true) (k : Nat) :
    GoodMap g mover rule start (distMap g mover rule start k) := by
  induction k with
  | zero => exact good_init g mover rule start hw
  | succ k ih =>
    rw [distMap, Function.iterate_succ_apply']
    exact good_relax ih

/-! ### Minimality of the distance table -/

/-- Helper: more rounds never cost more. -/
lemma ocost_distMap_anti (g : GridMap) (mover : Option EntityId)
    (rule : DiagonalRule) (start : GridPosition) {k j : Nat} (h : k ≤ j)
    (n : PNode) :
    ocost (distMap g mover rule start j n) ≤ ocost (distMap g mover rule start k n) := by
  induction j with
  | zero =>
    rw [Nat.le_zero.mp h]
  | succ j ih =>
    rcases Nat.lt_or_ge k (j + 1) with hlt | hge
    · refine le_trans ?_ (ih (by omega))
      rw [distMap, Function.iterate_succ_apply']
      exact ocost_relax_le _ _ _ _ _
    · rw [Nat.le_antisymm h hge]

/-- Helper: after enough rounds the table undercuts every valid path that
fits in the round count. -/
lemma ocost_distMap_le_path (g : GridMap) (mover : Option EntityId)
    (rule : DiagonalRule) (start : GridPosition) (pa : WPath) :
    validPathB g mover rule start pa = true →
    ∀ k, pa.length ≤ k + 1 →
      ocost (distMap g mover rule start k (pathEnd pa)) ≤ ((wcost pa : Nat) : ℕ∞) := by
  induction pa using List.reverseRecOn with
  | nil => intro h; exact absurd h (by simp [validPathB])
  | append_singleton l e ih =>
    intro hv k hlen
    rcases (validPathB_snoc g mover rule start l e).mp hv with ⟨hl0, hw, he⟩ | ⟨hvl, hedge⟩
    · subst hl0
      subst he
      rw [pathEnd_append_singleton]
      have h0 : ocost (distMap g mover rule start 0 ((start, false))) = 0 := by
        simp [distMap, initMap, ocost]
      refine le_trans (ocost_distMap_anti g mover rule start (Nat.zero_le k) _) ?_
      rw [h0]
      exact zero_le _
    · have hlne : l ≠ [] := by
        intro hcon
        rw [hcon] at hvl
        exact absurd hvl (by simp [validPathB])
      cases k with
      | zero =>
        exfalso
        rw [List.length_append, List.length_singleton] at hlen
        have : l.length = 0 := by omega
        exact hlne (List.length_eq_zero.mp this)
      | succ k0 =>
        have hlen2 : l.length ≤ k0 + 1 := by
          rw [List.length_append, List.length_singleton] at hlen
          omega
        have hIH := ih hvl k0 hlen2
        obtain ⟨m0, w0⟩ := e
        have hm : pathEnd l ∈ nodeList g := pathEnd_mem_nodeList hvl
        have hstep : ocost (distMap g mover rule start (k0 + 1) m0) ≤
            ocost (distMap g mover rule start k0 (pathEnd l)) + (w0 : ℕ∞) := by
          rw [distMap, Function.iterate_succ_apply']
          exact ocost_relax_le_edge hm hedge
        rw [pathEnd_append_singleton, wcost_append]
        refine le_trans hstep ?_
        refine le_trans (add_le_add_right hIH _) ?_
        rw [show wcost [((m0, w0) : PNode × Nat)] = w0 by simp [wcost]]
        rw [Nat.cast_add]

/-! ### Reachability stabilisation -/

/-- The set of nodes the table has entries for. -/
def suppF (g : GridMap) (d : DMap) : Finset PNode :=
  (nodeList g).toFinset.filter (fun n => (d n).isSome = true)

/-- One step of the reachability closure: a node is kept if it was in the
set or some set member has an edge to it. -/
def stepF (g : GridMap) (mover : Option EntityId) (rule : DiagonalRule)
    (S : Finset PNode) : Finset PNode :=
  (nodeList g).toFinset.filter (fun n => n ∈ S ∨
    ∃ m ∈ S, ((neighborsOf g mover rule m).any (fun e => decide (e.1 = n))) = true)

/-- Helper: table entries only live on grid nodes. -/
lemma distMap_isSome_mem (g : GridMap) (mover : Option EntityId)
    (rule : DiagonalRule) (start : GridPosition)
    (hw : walkable g mover start = true) :
    ∀ k n, (distMap g mover rule start k n).isSome = true → n ∈ nodeList g := by
  intro k
  induction k with
  | zero =>
    intro n h
    unfold distMap at h
    simp only [Function.iterate_zero, id_eq] at h
    unfold initMap at h
    split at h
    · next hn =>
      subst hn
      exact walkable_mem_nodeList hw false
    · simp at h
  | succ k ih =>
    intro n h
    rw [distMap, Function.iterate_succ_apply'] at h
    unfold relax at h
    rw [isSome_foldl_relaxStep] at h
    rcases (Bool.or_eq_true _ _).mp h with h1 | h2
    · exact ih n h1
    · rw [List.any_eq_true] at h2
      obtain ⟨e, he, -⟩ := h2
      obtain ⟨m, w⟩ := e
      obtain ⟨-, hnb⟩ := mem_edgesInto.mp he
      have hwk := (mem_neighborsOf hnb).1
      simpa using walkable_mem_nodeList hwk n.2

/-- Helper: the support after one more round is the closure step of the
support. -/
lemma suppF_distMap_succ (g : GridMap) (mover : Option EntityId)
    (rule : DiagonalRule) (start : GridPosition) (k : Nat) :
    suppF g (distMap g mover rule start (k + 1)) =
      stepF g mover rule (suppF g (distMap g mover rule start k)) := by
  ext n
  simp only [suppF, stepF, Finset.mem_filter, List.mem_toFinset]
  constructor
  · rintro ⟨hn, hs⟩
    refine ⟨hn, ?_⟩
    rw [distMap, Function.iterate_succ_apply'] at hs
    unfold relax at hs
    rw [isSome_foldl_relaxStep] at hs
    rcases (Bool.or_eq_true _ _).mp hs with h1 | h2
    · exact Or.inl ⟨hn, h1⟩
    · rw [List.any_eq_true] at h2
      obtain ⟨e, he, hde⟩ := h2
      obtain ⟨m, w⟩ := e
      obtain ⟨hmn, hnb⟩ := mem_edgesInto.mp he
      refine Or.inr ⟨m, ⟨hmn, hde⟩, ?_⟩
      rw [List.any_eq_true]
      exact ⟨(n, w), hnb, by simp⟩
  · rintro ⟨hn, hcase⟩
    refine ⟨hn, ?_⟩
    rw [distMap, Function.iterate_succ_apply']
    unfold relax
    rw [isSome_foldl_relaxStep]
    refine (Bool.or_eq_true _ _).mpr ?_
    rcases hcase with ⟨-, h1⟩ | ⟨m, ⟨hmn, hms⟩, hany⟩
    · exact Or.inl h1
    · right
      rw [List.any_eq_true] at hany ⊢
      obtain ⟨e, he, he1⟩ := hany
      simp only [decide_eq_true_eq] at he1
      refine ⟨(m, e.2), ?_, hms⟩
      refine mem_edgesInto.mpr ⟨hmn, ?_⟩
      rw [← he1]
      simpa using he

/-- Helper: supports only grow with more rounds. -/
lemma suppF_distMap_mono (g : GridMap) (mover : Option EntityId)
    (rule : DiagonalRule) (start : GridPosition) (k : Nat) :
    suppF g (distMap g mover rule start k) ⊆
      suppF g (distMap g mover rule start (k + 1)) := by
  intro n hn
  simp only [suppF, Finset.mem_filter, List.mem_toFinset] at hn ⊢
  refine ⟨hn.1, ?_⟩
  rw [distMap, Function.iterate_succ_apply']
  unfold relax
  rw [isSome_foldl_relaxStep]
  exact (Bool.or_eq_true _ _).mpr (Or.inl hn.2)

/-- Helper: supports grow along any increase of the round count. -/
lemma suppF_distMap_le (g : GridMap) (mover : Option EntityId)
    (rule : DiagonalRule) (start : GridPosition) {k j : Nat} (h : k ≤ j) :
    suppF g (distMap g mover rule start k) ⊆
      suppF g (distMap g mover rule start j) := by
  induction j with
  | zero =>
    rw [Nat.le_zero.mp h]
  | succ j ih =>
    rcases Nat.lt_or_ge k (j + 1) with hlt | hge
    · exact subset_trans (ih (by omega)) (suppF_distMap_mono g mover rule start j)
    · rw [Nat.le_antisymm h hge]

/-- Helper: a monotone, step-determined sequence of subsets of a finite
universe is constant from one past the universe's size onward. -/
lemma finset_seq_stabilises {α : Type} [DecidableEq α] (f : Finset α → Finset α)
    (S : Nat → Finset α) (U : Finset α)
    (hstep : ∀ k, S (k + 1) = f (S k))
    (hmono : ∀ k, S k ⊆ S (k + 1))
    (hsub : ∀ k, S k ⊆ U) :
    ∀ j, U.card + 1 ≤ j → S j = S (U.card + 1) := by
  by_cases hex : ∃ k, k ≤ U.card ∧ S (k + 1) = S k
  · obtain ⟨k, hk, hfix⟩ := hex
    have hconst : ∀ i, k ≤ i → S i = S k := by
      intro i hi
      induction i with
      | zero => rw [Nat.le_zero.mp hi]
      | succ i ih =>
        rcases Nat.lt_or_ge k (i + 1) with hlt | hge
        · rw [hstep i, ih (by omega), ← hstep k, hfix]
        · rw [Nat.le_antisymm hi hge]
    intro j hj
    rw [hconst j (by omega), hconst (U.card + 1) (by omega)]
  · exfalso
    push_neg at hex
    have hcard : ∀ k, k ≤ U.card + 1 → k ≤ (S k).card := by
      intro k
      induction k with
      | zero => intro _; exact Nat.zero_le _
      | succ k ih =>
        intro hk
        have h1 : S k ⊂ S (k + 1) := by
          refine ssubset_of_subset_of_ne (hmono k) ?_
          intro heq
          exact hex k (by omega) heq.symm
        have h2 := Finset.card_lt_card h1
        have h3 := ih (by omega)
        omega
    have h1 := hcard (U.card + 1) (le_refl _)
    have h2 : (S (U.card + 1)).card ≤ U.card := Finset.card_le_card (hsub _)
    omega

/-- Helper: after enough rounds the support is closed under the graph's
edges. -/
lemma suppF_distMap_closed (g : GridMap) (mover : Option EntityId)
    (rule : DiagonalRule) (start : GridPosition) {K : Nat}
    (hK : (nodeList g).toFinset.card + 1 ≤ K) :
    stepF g mover rule (suppF g (distMap g mover rule start K)) =
      suppF g (distMap g mover rule start K) := by
  have hstab := finset_seq_stabilises (stepF g mover rule)
    (fun k => suppF g (distMap g mover rule start k)) ((nodeList g).toFinset)
    (fun k => suppF_distMap_succ g mover rule start k)
    (fun k => suppF_distMap_mono g mover rule start k)
    (fun k => Finset.filter_subset _ _)
  have h1 : suppF g (distMap g mover rule start K) =
      suppF g (distMap g mover rule start ((nodeList g).toFinset.card + 1)) :=
    hstab K hK
  have h2 : suppF g (distMap g mover rule start ((nodeList g).toFinset.card + 1 + 1)) =
      suppF g (distMap g mover rule start ((nodeList g).toFinset.card + 1)) :=
    hstab ((nodeList g).toFinset.card + 1 + 1) (by omega)
  calc stepF g mover rule (suppF g (distMap g mover rule start K))
      = stepF g mover rule
          (suppF g (distMap g mover rule start ((nodeList g).toFinset.card + 1))) := by
        rw [h1]
    _ = suppF g (distMap g mover rule start ((nodeList g).toFinset.card + 1 + 1)) :=
        (suppF_distMap_succ g mover rule start _).symm
    _ = suppF g (distMap g mover rule start ((nodeList g).toFinset.card + 1)) := h2
    _ = suppF g (distMap g mover rule start K) := h1.symm

/-- Helper: every valid path's end lies in the stabilised support. -/
lemma pathEnd_mem_suppF (g : GridMap) (mover : Option EntityId)
    (rule : DiagonalRule) (start : GridPosition) {K : Nat}
    (hK : (nodeList g).toFinset.card + 1 ≤ K) {pa : WPath}
    (hv : validPathB g mover rule start pa = true) :
    pathEnd pa ∈ suppF g (distMap g mover rule start K) := by
  induction pa using List.reverseRecOn with
  | nil => exact absurd hv (by simp [validPathB])
  | append_singleton l e ih =>
    rcases (validPathB_snoc g mover rule start l e).mp hv with ⟨-, hw, he⟩ | ⟨hvl, hedge⟩
    · subst he
      rw [pathEnd_append_singleton]
      refine suppF_distMap_le g mover rule start (Nat.zero_le K) ?_
      simp only [suppF, Finset.mem_filter, List.mem_toFinset]
      refine ⟨walkable_mem_nodeList hw false, ?_⟩
      simp [distMap, initMap]
    · have hm := ih hvl
      rw [pathEnd_append_singleton]
      rw [← suppF_distMap_closed g mover rule start hK]
      simp only [stepF, Finset.mem_filter, List.mem_toFinset]
      have hwk := (mem_neighborsOf hedge).1
      refine ⟨by simpa using walkable_mem_nodeList hwk e.1.2, Or.inr ⟨pathEnd l, hm, ?_⟩⟩
      rw [List.any_eq_true]
      exact ⟨e, hedge, by simp⟩

/-! ### Assembling the outcomes -/

/-- Helper: the goal entry is one of the two parity entries. -/
lemma goalEntry_cases (d : DMap) (goal : GridPosition) :
    goalEntry d goal = d (goal, false) ∨ goalEntry d goal = d (goal, true) :=
  entryBetter_eq_or _ _

/-- Helper: the goal entry is defined iff one parity entry is. -/
lemma goalEntry_isSome (d : DMap) (goal : GridPosition) :
    (goalEntry d goal).isSome = ((d (goal, false)).isSome || (d (goal, true)).isSome) :=
  entryBetter_isSome _ _

/-- Helper: the goal entry costs no more than either parity entry. -/
lemma ocost_goalEntry_le (d : DMap) (goal : GridPosition) (b : Bool) :
    ocost (goalEntry d goal) ≤ ocost (d (goal, b)) := by
  cases b
  · exact ocost_entryBetter_left _ _
  · exact ocost_entryBetter_right _ _

/-- Helper: truncation at the empty path. -/
lemma truncW_nil (budget spent : Nat) : truncW budget spent [] = ([], spent) := rfl

/-- Helper: truncation at a cons. -/
lemma truncW_cons (budget spent : Nat) (e : PNode × Nat) (rest : WPath) :
    truncW budget spent (e :: rest) =
      if spent + e.2 ≤ budget then
        (e :: (truncW budget (spent + e.2) rest).1, (truncW budget (spent + e.2) rest).2)
      else ([], spent) := rfl

/-- Helper: what truncation guarantees — the result is a prefix of the
path, its cumulative cost stays within budget and accounts exactly for the
kept prefix, and the first dropped step (if any) would overshoot. -/
lemma truncW_spec (budget : Nat) (pa : WPath) :
    ∀ spent : Nat, spent ≤ budget →
      ∃ rest, (truncW budget spent pa).1 ++ rest = pa ∧
        (truncW budget spent pa).2 ≤ budget ∧
        (truncW budget spent pa).2 = spent + wcost (truncW budget spent pa).1 ∧
        (∀ e, rest.head? = some e → budget < (truncW budget spent pa).2 + e.2) := by
  induction pa with
  | nil =>
    intro spent hs
    refine ⟨[], by simp [truncW_nil], by simpa [truncW_nil], by simp [truncW_nil, wcost], ?_⟩
    intro e he
    simp at he
  | cons e rest ih =>
    intro spent hs
    rw [truncW_cons]
    by_cases hcond : spent + e.2 ≤ budget
    · rw [if_pos hcond]
      obtain ⟨r2, hr1, hr2, hr3, hr4⟩ := ih (spent + e.2) hcond
      refine ⟨r2, ?_, ?_, ?_, ?_⟩
      · simp only [List.cons_append, hr1]
      · exact hr2
      · simp only []
        rw [hr3]
        have hwc : wcost (e :: (truncW budget (spent + e.2) rest).1) =
            e.2 + wcost (truncW budget (spent + e.2) rest).1 := by
          simp [wcost]
        rw [hwc]
        omega
      · exact hr4
    · rw [if_neg hcond]
      refine ⟨e :: rest, by simp, hs, by simp [wcost], ?_⟩
      intro f hf
      simp only [List.head?_cons, Option.some.injEq] at hf
      subst hf
      omega

/-- Helper: a nonempty prefix of a valid path is a valid path. -/
lemma validPathB_of_append {g : GridMap} {mover : Option EntityId}
    {rule : DiagonalRule} {start : GridPosition} {l1 l2 : WPath}
    (h : validPathB g mover rule start (l1 ++ l2) = true) (hne : l1 ≠ []) :
    validPathB g mover rule start l1 = true := by
  cases l1 with
  | nil => exact absurd rfl hne
  | cons f r1 =>
    have h2 : (walkable g mover start && decide (f = (((start, false) : PNode), 0)) &&
        chainB g mover rule f.1 (r1 ++ l2)) = true := h
    rw [chainB_append] at h2
    simp only [Bool.and_eq_true] at h2
    show (walkable g mover start && decide (f = (((start, false) : PNode), 0)) &&
        chainB g mover rule f.1 r1) = true
    simp only [Bool.and_eq_true]
    exact ⟨h2.1, h2.2.1⟩

/-- Helper: a valid path starts with the start node at edge cost 0. -/
lemma validPathB_head {g : GridMap} {mover : Option EntityId}
    {rule : DiagonalRule} {start : GridPosition} {pa : WPath}
    (h : validPathB g mover rule start pa = true) :
    pa.head? = some ((((start, false) : PNode)), 0) := by
  cases pa with
  | nil => exact absurd h (by simp [validPathB])
  | cons e rest =>
    have h2 : (walkable g mover start && decide (e = (((start, false) : PNode), 0)) &&
        chainB g mover rule e.1 rest) = true := h
    simp only [Bool.and_eq_true, decide_eq_true_eq] at h2
    rw [List.head?_cons, h2.1.2]

/-- Helper: computing `find_path` once the goal entry is known. -/
lemma find_path_eq_some {g : GridMap} {start goal : GridPosition}
    {mover : Option EntityId} {budget : Nat} {rule : DiagonalRule}
    {c : Nat} {pa : WPath}
    (hw : walkable g mover start = true)
    (hge : goalEntry (distMap g mover rule start (searchRounds g budget)) goal =
      some (c, pa)) :
    find_path g start goal mover budget rule =
      if c ≤ budget then PathResult.reached (pa.map (fun e => e.1.1)) c
      else PathResult.budgetExceeded ((truncW budget 0 pa).1.map (fun e => e.1.1))
        (truncW budget 0 pa).2 := by
  unfold find_path
  rw [if_pos hw]
  simp only [hge]

/-- Helper: computing `find_path` when the goal has no entry. -/
lemma find_path_eq_none {g : GridMap} {start goal : GridPosition}
    {mover : Option EntityId} {budget : Nat} {rule : DiagonalRule}
    (hw : walkable g mover start = true)
    (hge : goalEntry (distMap g mover rule start (searchRounds g budget)) goal = none) :
    find_path g start goal mover budget rule = PathResult.unreachable := by
  unfold find_path
  rw [if_pos hw]
  simp only [hge]

/-! ## Claim C4 -/

/-- C4: every pathfinding query returns exactly one of the three flagged
outcomes, and the flag matches the query: `Reached` with a full realising
path and its cost within budget when the goal is reachable within budget;
`BudgetExceeded` with the found goal path truncated to the budget when the
goal is reachable only beyond budget; `Unreachable`, whose path payload is
empty, when the goal is not reachable — never an unflagged partial path. -/
theorem C4_find_path_flagged_outcomes (g : GridMap) (start goal : GridPosition)
    (mover : Option EntityId) (budget : Nat) (rule : DiagonalRule) :
    ((∃ p c, find_path g start goal mover budget rule = PathResult.reached p c) ∨
      (∃ p c, find_path g start goal mover budget rule = PathResult.budgetExceeded p c) ∨
      find_path g start goal mover budget rule = PathResult.unreachable) ∧
    (ReachedWithin g mover rule start goal budget →
      ∃ p c, find_path g start goal mover budget rule = PathResult.reached p c ∧
        c ≤ budget ∧
        ∃ pa, validPathB g mover rule start pa = true ∧ (pathEnd pa).1 = goal ∧
          wcost pa = c ∧ p = pa.map (fun e => e.1.1)) ∧
    ((ReachableP g mover rule start goal ∧
        ¬ ReachedWithin g mover rule start goal budget) →
      ∃ p c, find_path g start goal mover budget rule = PathResult.budgetExceeded p c ∧
        c ≤ budget ∧
        ∃ pa qa rest, validPathB g mover rule start pa = true ∧
          (pathEnd pa).1 = goal ∧ budget < wcost pa ∧
          qa ++ rest = pa ∧ validPathB g mover rule start qa = true ∧
          wcost qa = c ∧ p = qa.map (fun e => e.1.1) ∧
          (∀ e, rest.head? = some e → budget < c + e.2)) ∧
    (¬ ReachableP g mover rule start goal →
      find_path g start goal mover budget rule = PathResult.unreachable ∧
      PathResult.unreachable.pathCells = ([] : List GridPosition)) := by
  have hK1 : (nodeList g).toFinset.card + 1 ≤ searchRounds g budget := by
    unfold searchRounds
    omega
  have hKb : budget ≤ searchRounds g budget := by
    unfold searchRounds
    omega
  refine ⟨?_, ?_, ?_, ?_⟩
  · rcases hres : find_path g start goal mover budget rule with ⟨p, c⟩ | ⟨p, c⟩ | _
    · exact Or.inl ⟨p, c, rfl⟩
    · exact Or.inr (Or.inl ⟨p, c, rfl⟩)
    · exact Or.inr (Or.inr rfl)
  · rintro ⟨pa0, hv0, hend0, hcost0⟩
    have hw : walkable g mover start = true := validPathB_walkable hv0
    have hgood := good_distMap g mover rule start hw (searchRounds g budget)
    have hlen : pa0.length ≤ searchRounds g budget + 1 := by
      have h1 := length_le_wcost hv0
      omega
    have hmin := ocost_distMap_le_path g mover rule start pa0 hv0
      (searchRounds g budget) hlen
    have heta : ((goal, (pathEnd pa0).2) : PNode) = pathEnd pa0 := by
      rw [← hend0]
    have hble : ocost (goalEntry (distMap g mover rule start (searchRounds g budget))
        goal) ≤ ((budget : Nat) : ℕ∞) := by
      refine le_trans (ocost_goalEntry_le _ goal (pathEnd pa0).2) ?_
      rw [heta]
      exact le_trans hmin (by exact_mod_cast hcost0)
    rcases hge : goalEntry (distMap g mover rule start (searchRounds g budget)) goal
      with _ | ⟨c, pa⟩
    · rw [hge] at hble
      exact absurd hble (by simp [ocost])
    · rw [hge] at hble
      have hcb : c ≤ budget := by
        have : ((c : Nat) : ℕ∞) ≤ ((budget : Nat) : ℕ∞) := hble
        exact_mod_cast this
      have hpa : validPathB g mover rule start pa = true ∧ (pathEnd pa).1 = goal ∧
          wcost pa = c := by
        rcases goalEntry_cases (distMap g mover rule start (searchRounds g budget))
          goal with hc | hc
        · rw [hc] at hge
          obtain ⟨h1, h2, h3⟩ := hgood _ _ _ hge
          exact ⟨h1, by rw [h2], h3⟩
        · rw [hc] at hge
          obtain ⟨h1, h2, h3⟩ := hgood _ _ _ hge
          exact ⟨h1, by rw [h2], h3⟩
      refine ⟨pa.map (fun e => e.1.1), c, ?_, hcb, pa, hpa.1, hpa.2.1, hpa.2.2, rfl⟩
      rw [find_path_eq_some hw hge, if_pos hcb]
  · rintro ⟨⟨pa0, hv0, hend0⟩, hnw⟩
    have hw : walkable g mover start = true := validPathB_walkable hv0
    have hgood := good_distMap g mover rule start hw (searchRounds g budget)
    have hmem := pathEnd_mem_suppF g mover rule start hK1 hv0
    have hsome : (distMap g mover rule start (searchRounds g budget)
        (pathEnd pa0)).isSome = true := by
      simp only [suppF, Finset.mem_filter] at hmem
      exact hmem.2
    have hgs : (goalEntry (distMap g mover rule start (searchRounds g budget))
        goal).isSome = true := by
      rw [goalEntry_isSome]
      refine (Bool.or_eq_true _ _).mpr ?_
      rcases hb : (pathEnd pa0).2 with _ | _
      · left
        rw [show ((goal, false) : PNode) = pathEnd pa0 by rw [← hend0, ← hb]]
        exact hsome
      · right
        rw [show ((goal, true) : PNode) = pathEnd pa0 by rw [← hend0, ← hb]]
        exact hsome
    rcases hge : goalEntry (distMap g mover rule start (searchRounds g budget)) goal
      with _ | ⟨c, pa⟩
    · rw [hge] at hgs
      exact absurd hgs (by simp)
    · have hpa : validPathB g mover rule start pa = true ∧ (pathEnd pa).1 = goal ∧
          wcost pa = c := by
        rcases goalEntry_cases (distMap g mover rule start (searchRounds g budget))
          goal with hc | hc
        · rw [hc] at hge
          obtain ⟨h1, h2, h3⟩ := hgood _ _ _ hge
          exact ⟨h1, by rw [h2], h3⟩
        · rw [hc] at hge
          obtain ⟨h1, h2, h3⟩ := hgood _ _ _ hge
          exact ⟨h1, by rw [h2], h3⟩
      have hcgt : budget < c := by
        by_contra hcon
        exact hnw ⟨pa, hpa.1, hpa.2.1, by omega⟩
      obtain ⟨rest, hr1, hr2, hr3, hr4⟩ := truncW_spec budget pa 0 (Nat.zero_le _)
      have htne : (truncW budget 0 pa).1 ≠ [] := by
        have hh := validPathB_head hpa.1
        cases pa with
        | nil => simp at hh
        | cons e0 pa2 =>
          rw [List.head?_cons, Option.some.injEq] at hh
          subst hh
          rw [truncW_cons]
          rw [if_pos (by simp)]
          simp
      have hqv : validPathB g mover rule start (truncW budget 0 pa).1 = true := by
        have hfull := hpa.1
        rw [← hr1] at hfull
        exact validPathB_of_append hfull htne
      refine ⟨(truncW budget 0 pa).1.map (fun e => e.1.1), (truncW budget 0 pa).2,
        ?_, hr2, pa, (truncW budget 0 pa).1, rest, hpa.1, hpa.2.1, ?_, hr1, hqv,
        by omega, rfl, hr4⟩
      · rw [find_path_eq_some hw hge, if_neg (by omega)]
      · rw [hpa.2.2]
        exact hcgt
  · intro hnr
    rcases hwc : walkable g mover start with _ | _
    · refine ⟨?_, rfl⟩
      unfold find_path
      rw [if_neg (by simp [hwc])]
    · rcases hge : goalEntry (distMap g mover rule start (searchRounds g budget)) goal
        with _ | ⟨c, pa⟩
      · exact ⟨find_path_eq_none hwc hge, rfl⟩
      · exfalso
        apply hnr
        have hgood := good_distMap g mover rule start hwc (searchRounds g budget)
        rcases goalEntry_cases (distMap g mover rule start (searchRounds g budget))
          goal with hc | hc
        · rw [hc] at hge
          obtain ⟨h1, h2, -⟩ := hgood _ _ _ hge
          exact ⟨pa, h1, by rw [h2]⟩
        · rw [hc] at hge
          obtain ⟨h1, h2, -⟩ := hgood _ _ _ hge
          exact ⟨pa, h1, by rw [h2]⟩
